import Mathlib

/-!
# Incremental Script Assembly & Section Resolution: a verification development

This file gives a shallow embedding, in Lean 4, of the pure text-assembly and
segment-resolution logic of the `manim-ai` repository (files
`app/ai_clients.py`, `app/manim_runner.py` and the segment-resolution branch of
`app/ui_main.py`), together with theorems settling the specification claims
about that logic.

Python strings are modelled as `List Char`; a Python string method used by the
source (`strip`, `split('\n')`, `splitlines`, `startswith`, `in`, slicing,
`join`) is given an executable Lean counterpart on `List Char`.  Each embedded
definition keeps the name of the source function it translates.
-/

/-- Characters treated as whitespace by Python's `str.strip` / `str.lstrip`
(ASCII range: space, tab, newline, carriage return, vertical tab, form feed). -/
def pyIsSpace (c : Char) : Bool :=
  c = ' ' || c = '\t' || c = '\n' || c = '\r' || c = '\x0b' || c = '\x0c'

/-- Python `s.lstrip()`. -/
def pyLstrip (s : List Char) : List Char :=
  s.dropWhile pyIsSpace

/-- Python `s.rstrip()`. -/
def pyRstrip (s : List Char) : List Char :=
  (s.reverse.dropWhile pyIsSpace).reverse

/-- Python `s.strip()`. -/
def pyStrip (s : List Char) : List Char :=
  pyRstrip (pyLstrip s)

/-- Auxiliary worker for `pySplitNl` (accumulates the current line reversed). -/
def pySplitNlAux : List Char → List Char → List (List Char)
  | [], acc => [acc.reverse]
  | c :: rest, acc =>
      if c = '\n' then acc.reverse :: pySplitNlAux rest []
      else pySplitNlAux rest (c :: acc)

/-- Python `s.split('\n')`: always returns at least one (possibly empty) part. -/
def pySplitNl (s : List Char) : List (List Char) :=
  pySplitNlAux s []

/-- Characters on which Python `str.splitlines` breaks lines
(ASCII subset: `\n`, `\r`, `\v`, `\f`, `\x1c`, `\x1d`, `\x1e`). -/
def pyIsLineBreak (c : Char) : Bool :=
  c = '\n' || c = '\r' || c = '\x0b' || c = '\x0c' ||
  c = '\x1c' || c = '\x1d' || c = '\x1e'

/-- Auxiliary worker for `pySplitLines`; treats `\r\n` as a single separator. -/
def pySplitLinesAux : List Char → List Char → List (List Char)
  | [], acc => if acc.isEmpty then [] else [acc.reverse]
  | '\r' :: '\n' :: rest, acc => acc.reverse :: pySplitLinesAux rest []
  | c :: rest, acc =>
      if pyIsLineBreak c then acc.reverse :: pySplitLinesAux rest []
      else pySplitLinesAux rest (c :: acc)

/-- Python `s.splitlines()`: no empty trailing element for a trailing newline. -/
def pySplitLines (s : List Char) : List (List Char) :=
  pySplitLinesAux s []

/-- Python `'\n'.join(lines)`. -/
def joinNl : List (List Char) → List Char
  | [] => []
  | [l] => l
  | l :: l2 :: rest => l ++ '\n' :: joinNl (l2 :: rest)

/-- Python substring test `pat in s`. -/
def listContains (s pat : List Char) : Bool :=
  match s with
  | [] => pat.isEmpty
  | _ :: rest => pat.isPrefixOf s || listContains rest pat

/-- Number of start positions in `s` at which `pat` occurs as a substring
(the formal meaning of "number of occurrences" used throughout). -/
def countOccs (s pat : List Char) : Nat :=
  match s with
  | [] => 0
  | _ :: rest => (if pat.isPrefixOf s then 1 else 0) + countOccs rest pat

/-- Python `s.split(pat, 1)` restricted to the case `pat in s`: returns the text
before and after the first occurrence of `pat`, or `none` when `pat` does not
occur (`pat` is assumed nonempty, as it is at the one call site). -/
def splitFirst (pat : List Char) : List Char → Option (List Char × List Char)
  | [] => none
  | c :: rest =>
      if pat.isPrefixOf (c :: rest) then some ([], (c :: rest).drop pat.length)
      else
        match splitFirst pat rest with
        | some (a, b) => some (c :: a, b)
        | none => none

/-- Width of the leading-whitespace run of a line,
Python's `len(line) - len(line.lstrip())`. -/
def indentWidth (l : List Char) : Nat :=
  (l.takeWhile pyIsSpace).length

/-- Python string comparison `a <= b` (lexicographic on code points). -/
def lexLe : List Char → List Char → Bool
  | [], _ => true
  | _ :: _, [] => false
  | a :: as, b :: bs => if a < b then true else if b < a then false else lexLe as bs

/-! ## Constants from `app/ai_clients.py` and `app/manim_runner.py` -/

/-- `SECTION_MARKER = "# <<SECTION_BREAK>>"`. -/
def SECTION_MARKER : List Char := "# <<SECTION_BREAK>>".data

/-- The renderer-native section-break directive `self.next_section()`. -/
def NEXT_SECTION_CALL : List Char := "self.next_section()".data

/-- The `construct` signature text matched by `_find_construct_insert_position`. -/
def CONSTRUCT_SIG : List Char := "def construct(self):".data

/-- The eight-space target indentation used by `ensure_section_addition`. -/
def TARGET_INDENT : List Char := "        ".data

/-! ## `ai_clients.py` translations -/

/-- `_strip_code_fences(code)`:
strip the text; if it starts with a code fence, drop the first line and, when
the last line (stripped) also starts with a fence, drop it too; rejoin with
`\n`.  Otherwise return the input unchanged. -/
def stripCodeFences (code : List Char) : List Char :=
  let stripped := pyStrip code
  if ("```".data).isPrefixOf stripped then
    let lines := (pySplitLines stripped).drop 1
    let lines2 :=
      match lines.getLast? with
      | some last => if ("```".data).isPrefixOf (pyStrip last) then lines.dropLast else lines
      | none => lines
    joinNl lines2
  else code

/-- `_remove_common_indent(code)`: keep only the non-blank lines, compute their
minimum leading-whitespace width, cut that many characters from each line
(the Python source guards with `len(line) > min_indent`), join and strip. -/
def removeCommonIndent (code : List Char) : List Char :=
  let lines := (pySplitLines code).filter (fun l => !(pyStrip l).isEmpty)
  match lines with
  | [] => []
  | l0 :: rest =>
      let minIndent := (rest.map indentWidth).foldl min (indentWidth l0)
      pyStrip (joinNl ((l0 :: rest).map
        (fun l => if minIndent < l.length then l.drop minIndent else l)))

/-- The per-line test of `_find_construct_insert_position`:
`(line.startswith("    ") or line.startswith("\t")) and line.strip()`. -/
def indentedNonBlank (l : List Char) : Bool :=
  (("    ".data).isPrefixOf l || ("\t".data).isPrefixOf l) && !(pyStrip l).isEmpty

/-- The loop of `_find_construct_insert_position`: walk the lines carrying the
current index `i`, the `found_construct` flag and `last_indented_line`. -/
def lastIndentedAux : List (List Char) → Nat → Bool → Int → Int
  | [], _, _, last => last
  | l :: rest, i, found, last =>
      let found2 := found || listContains l CONSTRUCT_SIG
      let last2 := if found2 && indentedNonBlank l then (i : Int) else last
      lastIndentedAux rest (i + 1) found2 last2

/-- Index of the first line containing the `construct` signature
(the second loop of `_find_construct_insert_position`). -/
def firstConstructIdx (lines : List (List Char)) : Option Nat :=
  List.findIdx? (fun l => listContains l CONSTRUCT_SIG) lines

/-- `_find_construct_insert_position(lines)`. -/
def findConstructInsertPosition (lines : List (List Char)) : Nat :=
  let last := lastIndentedAux lines 0 false (-1)
  if last ≠ -1 then (last + 1).toNat
  else
    match firstConstructIdx lines with
    | some i => i + 1
    | none => lines.length

/-- `_strip_markers_and_sections(code)`: drop every line containing the
sentinel and every line whose stripped text contains `self.next_section()`,
rejoin, strip, and append a final newline. -/
def stripMarkersAndSections (code : List Char) : List Char :=
  let kept := (pySplitNl code).filter
    (fun l => !(listContains l SECTION_MARKER) && !(listContains (pyStrip l) NEXT_SECTION_CALL))
  pyStrip (joinNl kept) ++ ['\n']

/-- Line pass of `_replace_section_marker`: the first line containing the
sentinel is rewritten to `indent + "self.next_section()"`; every later line
containing the sentinel is deleted; all other lines are kept. -/
def replaceMarkerLines : List (List Char) → List (List Char)
  | [] => []
  | l :: rest =>
      if listContains l SECTION_MARKER then
        (l.takeWhile pyIsSpace ++ NEXT_SECTION_CALL)
          :: rest.filter (fun x => !(listContains x SECTION_MARKER))
      else l :: replaceMarkerLines rest

/-- `_replace_section_marker(code)`: when no line contains the sentinel the
input is returned unchanged, otherwise the line pass is applied and rejoined. -/
def replaceSectionMarker (code : List Char) : List Char :=
  let lines := pySplitNl code
  if lines.any (fun l => listContains l SECTION_MARKER) then
    joinNl (replaceMarkerLines lines)
  else code

/-- The shared first step of `ensure_section_addition`:
`_strip_code_fences(ai_response).strip()`. -/
def stripClean (aiResponse : List Char) : List Char :=
  pyStrip (stripCodeFences aiResponse)

/-- The continuation-round content extraction of `ensure_section_addition`:
if the cleaned response contains `SECTION_MARKER`, keep only the text after its
first occurrence, dedented by `_remove_common_indent`; otherwise keep the
cleaned response as is. -/
def extractNewContent (aiResponse : List Char) : List Char :=
  let cleaned := stripClean aiResponse
  match splitFirst SECTION_MARKER cleaned with
  | some (_, after) => removeCommonIndent after
  | none => cleaned

/-- The per-line reindentation of `ensure_section_addition`: a line with
non-blank content is prefixed with the eight-space target indent unless it
already starts with it; a blank (whitespace-only) line becomes empty. -/
def reindentLine (l : List Char) : List Char :=
  if !(pyStrip l).isEmpty then
    (if TARGET_INDENT.isPrefixOf l then l else TARGET_INDENT ++ l)
  else []

/-- The fixed four-line header of the inserted block:
blank line, comment line, sentinel line, blank line. -/
def newSectionHeader : List (List Char) :=
  [[], "        # 新分段".data, TARGET_INDENT ++ SECTION_MARKER, []]

/-- The lines of the extracted content, Python's
`cleaned.split('\n') if cleaned else []`. -/
def contentLines (aiResponse : List Char) : List (List Char) :=
  if (extractNewContent aiResponse).isEmpty then []
  else pySplitNl (extractNewContent aiResponse)

/-- `ensure_section_addition(existing_code, ai_response, current_prompt)`
(the unused `current_prompt` parameter is omitted). -/
def ensureSectionAddition (existingCode aiResponse : List Char) : List Char :=
  if (pyStrip existingCode).isEmpty then stripMarkersAndSections (stripClean aiResponse)
  else
    let lines := pySplitNl existingCode
    let insertPos := findConstructInsertPosition lines
    let newSectionLines := newSectionHeader ++ (contentLines aiResponse).map reindentLine
    replaceSectionMarker
      (joinNl (lines.take insertPos ++ newSectionLines ++ lines.drop insertPos))

/-! ## `manim_runner.py` translations -/

/-- `\w` of `SCENE_CLASS_RE` (ASCII word characters). -/
def isWordChar (c : Char) : Bool :=
  ('a' ≤ c && c ≤ 'z') || ('A' ≤ c && c ≤ 'Z') || ('0' ≤ c && c ≤ '9') || c = '_'

/-- Consume a literal prefix, or fail. -/
def dropLit (lit s : List Char) : Option (List Char) :=
  if lit.isPrefixOf s then some (s.drop lit.length) else none

/-- Match `SCENE_CLASS_RE = class\s+(\w+)\s*\(\s*Scene\s*\)` at the start of
`s`, returning the captured class name.  Because `\s`, `\w` and the literal
characters involved are pairwise disjoint, the regex engine's greedy scan is
equivalent to this maximal-munch reading. -/
def matchSceneAt (s : List Char) : Option (List Char) :=
  match dropLit "class".data s with
  | none => none
  | some s1 =>
      if (s1.takeWhile pyIsSpace).isEmpty then none
      else
        if ((s1.dropWhile pyIsSpace).takeWhile isWordChar).isEmpty then none
        else
          match ((s1.dropWhile pyIsSpace).dropWhile isWordChar).dropWhile pyIsSpace with
          | [] => none
          | c :: s4 =>
              if c = '(' then
                match dropLit "Scene".data (s4.dropWhile pyIsSpace) with
                | none => none
                | some s5 =>
                    match s5.dropWhile pyIsSpace with
                    | [] => none
                    | d :: _ =>
                        if d = ')' then some ((s1.dropWhile pyIsSpace).takeWhile isWordChar)
                        else none
              else none

/-- `re.search` of `SCENE_CLASS_RE`: try every start position left to right. -/
def searchScene : List Char → Option (List Char)
  | [] => none
  | c :: rest =>
      match matchSceneAt (c :: rest) with
      | some n => some n
      | none => searchScene rest

/-- `extract_scene_class(code)`: the captured name of the first match, or a
`RenderError` when the scene-class pattern occurs nowhere in the text. -/
def extractSceneClass (code : List Char) : Except (List Char) (List Char) :=
  match searchScene code with
  | some n => Except.ok n
  | none => Except.error "未找到 Scene 子类，请检查 AI 输出".data

/-- A rendered media file, reduced to the two attributes the resolution logic
reads: its file name (the sort key `p.name`) and its full path (`str(p)`). -/
structure MediaFile where
  name : List Char
  path : List Char
deriving DecidableEq

/-- The sort order of `sorted(section_files, key=lambda p: p.name)`. -/
def nameLe (a b : MediaFile) : Prop := lexLe a.name b.name = true

instance : DecidableRel nameLe := fun a b =>
  inferInstanceAs (Decidable (lexLe a.name b.name = true))

/-- Python's stable sort by file name, modelled as an insertion sort. -/
def sortByName (l : List MediaFile) : List MediaFile :=
  List.insertionSort nameLe l

/-- The `*.mp4` glob test of `find_section_videos` (a name matches when it ends
in `.mp4` and is not a hidden dot-file). -/
def isMp4File (f : MediaFile) : Bool :=
  (".mp4".data).isSuffixOf f.name && (match f.name with | '.' :: _ => false | _ => true)

/-- The filesystem facts `find_section_videos(job_dir, class_name)` reads:
the listing of `videos/scene/1080p30/sections` when that directory exists, and
the listings of the existing `videos/*/*/sections` directories in glob order. -/
structure JobFS where
  primary : Option (List MediaFile)
  fallbacks : List (List MediaFile)

/-- The directory-selection phase of `find_section_videos`: the primary
sections directory, else the first existing glob fallback, else nothing. -/
def sectionsListing (fs : JobFS) : Option (List MediaFile) :=
  match fs.primary with
  | some d => some d
  | none => fs.fallbacks.head?

/-- `find_section_videos`: empty when no sections directory exists, otherwise
the `.mp4` files of the chosen directory sorted by file name. -/
def findSectionVideos (fs : JobFS) : List MediaFile :=
  match sectionsListing fs with
  | none => []
  | some files => sortByName (files.filter isMp4File)

/-! ## `ui_main.py`: segment resolution (`MainWindow._on_finished`) -/

/-- The section-resolution branch of `MainWindow._on_finished`: round 0 plays
the whole-program video; a later round plays the segment at its index in the
name-sorted segment list, clamped to the last segment; with no segments the
round gets no playable file (`section_video_path` stays `""`, modelled as
`none`). -/
def resolveSegment (segmentIndex : Nat) (videoPath : MediaFile)
    (sectionVideos : List MediaFile) : Option MediaFile :=
  if segmentIndex = 0 then some videoPath
  else if sectionVideos.isEmpty then none
  else
    let sorted := sortByName sectionVideos
    if h : segmentIndex < sorted.length then some (sorted.get ⟨segmentIndex, h⟩)
    else sorted.getLast?

/-! ## Definitions following the spec's words (for refutation comparisons) -/

/-- Follows the claim wording of C5 / spec §4.4 (NOT the source): find the
first signature line, then the last non-blank line at or after it whose
indentation is at or deeper than the method-body level (one 4-space level
deeper than the signature line's own indentation); return the offset after
that line, or after the signature line when no such body line exists.
`none` when the signature is absent (C5 only quantifies over texts
containing it). -/
def insertPosSpec (lines : List (List Char)) : Option Nat :=
  match firstConstructIdx lines with
  | none => none
  | some k =>
      let bodyLevel := indentWidth (lines.getD k []) + 4
      let deepIdxs := (List.range lines.length).filter
        (fun i => k ≤ i && !(pyStrip (lines.getD i [])).isEmpty
            && bodyLevel ≤ indentWidth (lines.getD i []))
      match deepIdxs.getLast? with
      | some j => some (j + 1)
      | none => some (k + 1)

/-- Follows the claim wording of C7 / spec §4.5 step 1 (NOT the source):
dedent by the minimum leading-whitespace width over non-blank lines, every
line shifted left by exactly that width, blank lines passing through
unchanged and staying in place. -/
def dedentSpec (code : List Char) : List Char :=
  let lines := pySplitLines code
  let nonBlank := lines.filter (fun l => !(pyStrip l).isEmpty)
  match nonBlank with
  | [] => code
  | l0 :: rest =>
      let minIndent := (rest.map indentWidth).foldl min (indentWidth l0)
      joinNl (lines.map (fun l => if (pyStrip l).isEmpty then l else l.drop minIndent))

/-- Follows the claim wording of C6 / spec §4.5 step 2 (NOT the source):
after the claimed dedent, prefix every non-blank line with the fixed target
indentation; blank lines remain blank. -/
def normalizeSpecLines (frag : List Char) : List (List Char) :=
  (pySplitLines (dedentSpec frag)).map
    (fun l => if (pyStrip l).isEmpty then l else TARGET_INDENT ++ l)

/-! ## Basic facts about occurrence counting -/

theorem countOccs_nil (pat : List Char) : countOccs [] pat = 0 := rfl

theorem countOccs_cons (c : Char) (z pat : List Char) :
    countOccs (c :: z) pat = (if pat.isPrefixOf (c :: z) then 1 else 0) + countOccs z pat := rfl

theorem bool_eq_of_iff {a b : Bool} (h : a = true ↔ b = true) : a = b := by
  cases a <;> cases b <;> simp_all

/-- A nonempty pattern whose head cannot be `c` is no prefix of `c :: z`. -/
theorem not_isPrefixOf_cons_of_notMem {pat : List Char} {c : Char} {z : List Char}
    (hp : pat ≠ []) (hc : c ∉ pat) : pat.isPrefixOf (c :: z) = false := by
  cases pat with
  | nil => exact absurd rfl hp
  | cons p pr =>
      have hpc : (p == c) = false := by
        have hne : c ≠ p := fun h => hc (h ▸ List.mem_cons_self p pr)
        simp [beq_eq_false_iff_ne]
        exact fun h => hne h.symm
      simp [List.isPrefixOf, hpc]

theorem countOccs_cons_of_notMem {pat : List Char} {c : Char} {z : List Char}
    (hp : pat ≠ []) (hc : c ∉ pat) : countOccs (c :: z) pat = countOccs z pat := by
  rw [countOccs_cons, not_isPrefixOf_cons_of_notMem hp hc]
  simp

/-- Crossing a boundary character `c` absent from the pattern is impossible. -/
theorem prefix_append_cons_iff {pat s : List Char} {c : Char} {b : List Char}
    (hc : c ∉ pat) : pat <+: s ++ c :: b ↔ pat <+: s := by
  constructor
  · intro h
    rcases Nat.lt_or_ge s.length pat.length with hlt | hge
    · exfalso
      rw [List.prefix_iff_eq_take, List.take_append_eq_append_take] at h
      have hsk : List.take pat.length s = s := List.take_of_length_le (Nat.le_of_lt hlt)
      have hk3 : List.take (pat.length - s.length) (c :: b)
          = c :: List.take (pat.length - s.length - 1) b := by
        cases h2 : pat.length - s.length with
        | zero => omega
        | succ k => rw [List.take_succ_cons]; simp
      rw [hsk, hk3] at h
      exact hc (h ▸ List.mem_append_right s (List.mem_cons_self c _))
    · rw [List.prefix_iff_eq_take, List.take_append_eq_append_take,
        Nat.sub_eq_zero_of_le hge] at h
      rw [List.prefix_iff_eq_take]
      simpa using h
  · intro h
    exact h.trans (List.prefix_append s (c :: b))

/-- Occurrence counting splits at a boundary character absent from the pattern. -/
theorem countOccs_append_cons (a : List Char) (c : Char) (b pat : List Char)
    (hc : c ∉ pat) :
    countOccs (a ++ c :: b) pat = countOccs a pat + countOccs (c :: b) pat := by
  induction a with
  | nil => simp [countOccs_nil]
  | cons x a ih =>
      have he : pat.isPrefixOf (x :: (a ++ c :: b)) = pat.isPrefixOf (x :: a) := by
        apply bool_eq_of_iff
        rw [List.isPrefixOf_iff_prefix, List.isPrefixOf_iff_prefix]
        exact prefix_append_cons_iff (s := x :: a) hc
      rw [List.cons_append, countOccs_cons, he, ih, countOccs_cons x a pat]
      omega

/-- A pattern containing a non-whitespace character never occurs in an
all-whitespace string. -/
theorem countOccs_ws_eq_zero {s pat : List Char} (hs : ∀ c ∈ s, pyIsSpace c = true)
    (hp : pat ≠ []) (hw : ∀ c ∈ pat, pyIsSpace c = false) : countOccs s pat = 0 := by
  induction s with
  | nil => rfl
  | cons c z ih =>
      have hc : c ∉ pat := fun hmem => by
        have h1 := hw c hmem
        have h2 := hs c (List.mem_cons_self c z)
        simp_all
      rw [countOccs_cons_of_notMem hp hc]
      exact ih (fun x hx => hs x (List.mem_cons_of_mem c hx))

/-- Prepending whitespace does not change the occurrence count of a pattern
made of non-whitespace characters. -/
theorem countOccs_ws_append {w : List Char} (x pat : List Char)
    (hws : ∀ c ∈ w, pyIsSpace c = true) (hp : pat ≠ [])
    (hw : ∀ c ∈ pat, pyIsSpace c = false) :
    countOccs (w ++ x) pat = countOccs x pat := by
  induction w with
  | nil => simp
  | cons c w ih =>
      have hc : c ∉ pat := fun hmem => by
        have h1 := hw c hmem
        have h2 := hws c (List.mem_cons_self c w)
        simp_all
      rw [List.cons_append, countOccs_cons_of_notMem hp hc]
      exact ih (fun y hy => hws y (List.mem_cons_of_mem c hy))

/-- Appending whitespace does not change the occurrence count of a pattern
made of non-whitespace characters. -/
theorem countOccs_append_ws {w : List Char} (x pat : List Char)
    (hws : ∀ c ∈ w, pyIsSpace c = true) (hp : pat ≠ [])
    (hw : ∀ c ∈ pat, pyIsSpace c = false) :
    countOccs (x ++ w) pat = countOccs x pat := by
  cases w with
  | nil => simp
  | cons c w =>
      have hc : c ∉ pat := fun hmem => by
        have h1 := hw c hmem
        have h2 := hws c (List.mem_cons_self c w)
        simp_all
      rw [countOccs_append_cons x c w pat hc, countOccs_ws_eq_zero hws hp hw]
      omega

/-! ## Monotonicity and strip lemmas for occurrence counting -/

theorem countOccs_le_append_right (t v pat : List Char) :
    countOccs t pat ≤ countOccs (t ++ v) pat := by
  induction t with
  | nil => simp [countOccs_nil]
  | cons x t ih =>
      rw [List.cons_append, countOccs_cons, countOccs_cons]
      have hmono : (if pat.isPrefixOf (x :: t) then 1 else 0)
          ≤ (if pat.isPrefixOf (x :: (t ++ v)) then (1 : Nat) else 0) := by
        by_cases hb : pat.isPrefixOf (x :: t) = true
        · have : pat <+: (x :: t) ++ v :=
            (List.isPrefixOf_iff_prefix.mp hb).trans (List.prefix_append _ _)
          rw [hb]
          rw [List.cons_append] at this
          simp [List.isPrefixOf_iff_prefix.mpr this]
        · simp [hb]
      omega

theorem countOccs_le_of_suffix {t s : List Char} (pat : List Char) (h : t <:+ s) :
    countOccs t pat ≤ countOccs s pat := by
  obtain ⟨u, rfl⟩ := h
  induction u with
  | nil => simp
  | cons x u ih =>
      rw [List.cons_append, countOccs_cons]
      omega

theorem countOccs_le_of_infix_part {t s : List Char} (pat : List Char) (h : t <:+: s) :
    countOccs t pat ≤ countOccs s pat := by
  obtain ⟨u, v, rfl⟩ := h
  have h1 : countOccs t pat ≤ countOccs (t ++ v) pat := countOccs_le_append_right t v pat
  have h2 : countOccs (t ++ v) pat ≤ countOccs (u ++ (t ++ v)) pat :=
    countOccs_le_of_suffix pat ⟨u, rfl⟩
  rw [← List.append_assoc] at h2
  omega

/-- `pyStrip` is an infix of the input. -/
theorem pyStrip_infix_self (s : List Char) : pyStrip s <:+: s := by
  have h1 : pyLstrip s <:+ s := ⟨s.takeWhile pyIsSpace, List.takeWhile_append_dropWhile pyIsSpace s⟩
  have h2 : pyRstrip (pyLstrip s) <+: pyLstrip s := by
    unfold pyRstrip
    have := List.takeWhile_append_dropWhile pyIsSpace (pyLstrip s).reverse
    refine ⟨((pyLstrip s).reverse.takeWhile pyIsSpace).reverse, ?_⟩
    rw [← List.reverse_append, this, List.reverse_reverse]
  exact List.IsInfix.trans (List.IsPrefix.isInfix h2) (List.IsSuffix.isInfix h1)

/-- The characters stripped from the right are whitespace. -/
theorem pyRstrip_decomp (s : List Char) :
    ∃ w, s = pyRstrip s ++ w ∧ ∀ c ∈ w, pyIsSpace c = true := by
  refine ⟨(s.reverse.takeWhile pyIsSpace).reverse, ?_, ?_⟩
  · conv_lhs => rw [← List.reverse_reverse s,
      ← List.takeWhile_append_dropWhile pyIsSpace s.reverse]
    rw [List.reverse_append]
    rfl
  · intro c hc
    rw [List.mem_reverse] at hc
    exact List.mem_takeWhile_imp hc

/-- The characters stripped from the left are whitespace. -/
theorem pyLstrip_decomp (s : List Char) :
    ∃ w, s = w ++ pyLstrip s ∧ ∀ c ∈ w, pyIsSpace c = true := by
  refine ⟨s.takeWhile pyIsSpace, (List.takeWhile_append_dropWhile pyIsSpace s).symm, ?_⟩
  intro c hc
  exact List.mem_takeWhile_imp hc

/-- Stripping surrounding whitespace preserves the occurrence count of a
pattern made of non-whitespace characters. -/
theorem countOccs_pyStrip (s pat : List Char) (hp : pat ≠ [])
    (hw : ∀ c ∈ pat, pyIsSpace c = false) :
    countOccs (pyStrip s) pat = countOccs s pat := by
  obtain ⟨w1, hw1, hws1⟩ := pyLstrip_decomp s
  obtain ⟨w2, hw2, hws2⟩ := pyRstrip_decomp (pyLstrip s)
  calc countOccs (pyStrip s) pat
      = countOccs (pyRstrip (pyLstrip s) ++ w2) pat :=
        (countOccs_append_ws _ pat hws2 hp hw).symm
    _ = countOccs (pyLstrip s) pat := by rw [← hw2]
    _ = countOccs (w1 ++ pyLstrip s) pat :=
        (countOccs_ws_append _ pat hws1 hp hw).symm
    _ = countOccs s pat := by rw [← hw1]

/-- Substring containment is occurrence count being nonzero. -/
theorem listContains_iff_countOccs (s pat : List Char) (hp : pat ≠ []) :
    listContains s pat = true ↔ countOccs s pat ≠ 0 := by
  induction s with
  | nil =>
      simp [listContains, countOccs_nil]
      exact hp
  | cons c z ih =>
      rw [listContains, countOccs_cons]
      by_cases hb : pat.isPrefixOf (c :: z) = true
      · simp [hb]
      · simp only [Bool.or_eq_true, hb, false_or]
        rw [ih]
        simp [hb]

/-! ## Splitting on newlines and joining back -/

theorem pySplitNlAux_ne_nil (s acc : List Char) : pySplitNlAux s acc ≠ [] := by
  induction s generalizing acc with
  | nil => simp [pySplitNlAux]
  | cons c rest ih =>
      rw [pySplitNlAux]
      by_cases hc : c = '\n' <;> simp [hc, ih]

theorem pySplitNl_ne_nil (s : List Char) : pySplitNl s ≠ [] :=
  pySplitNlAux_ne_nil s []

theorem joinNl_cons (l : List Char) (ls : List (List Char)) (h : ls ≠ []) :
    joinNl (l :: ls) = l ++ '\n' :: joinNl ls := by
  cases ls with
  | nil => exact absurd rfl h
  | cons l2 rest => rfl

theorem joinNl_pySplitNlAux (s acc : List Char) :
    joinNl (pySplitNlAux s acc) = acc.reverse ++ s := by
  induction s generalizing acc with
  | nil => simp [pySplitNlAux, joinNl]
  | cons c rest ih =>
      rw [pySplitNlAux]
      by_cases hc : c = '\n'
      · rw [if_pos hc, joinNl_cons _ _ (pySplitNlAux_ne_nil rest []), ih]
        simp [hc]
      · rw [if_neg hc, ih]
        simp

/-- Joining the parts of `split('\n')` with `'\n'` restores the input. -/
theorem joinNl_pySplitNl (s : List Char) : joinNl (pySplitNl s) = s := by
  simpa using joinNl_pySplitNlAux s []

theorem pySplitNlAux_no_newline (s acc : List Char) (hacc : '\n' ∉ acc) :
    ∀ l ∈ pySplitNlAux s acc, '\n' ∉ l := by
  induction s generalizing acc with
  | nil =>
      intro l hl
      rw [pySplitNlAux, List.mem_singleton] at hl
      subst hl
      simpa using hacc
  | cons c rest ih =>
      intro l hl
      rw [pySplitNlAux] at hl
      by_cases hc : c = '\n'
      · rw [if_pos hc, List.mem_cons] at hl
        rcases hl with rfl | hl
        · simpa using hacc
        · exact ih [] (by simp) l hl
      · rw [if_neg hc] at hl
        refine ih (c :: acc) ?_ l hl
        simp only [List.mem_cons, not_or]
        exact ⟨fun h => hc h.symm, hacc⟩

/-- Every part produced by `split('\n')` is newline-free. -/
theorem pySplitNl_no_newline (s : List Char) : ∀ l ∈ pySplitNl s, '\n' ∉ l :=
  pySplitNlAux_no_newline s [] (by simp)

theorem pySplitNlAux_append_line (l s acc : List Char) (hl : '\n' ∉ l) :
    pySplitNlAux (l ++ s) acc = pySplitNlAux s (l.reverse ++ acc) := by
  induction l generalizing acc with
  | nil => simp
  | cons c l ih =>
      have hc : c ≠ '\n' := fun h => hl (h ▸ List.mem_cons_self c l)
      rw [List.cons_append, pySplitNlAux, if_neg hc,
        ih (c :: acc) (fun h => hl (List.mem_cons_of_mem c h))]
      simp

/-- Splitting a join of newline-free lines restores the lines. -/
theorem pySplitNl_joinNl (ls : List (List Char)) (hne : ls ≠ [])
    (h : ∀ l ∈ ls, '\n' ∉ l) : pySplitNl (joinNl ls) = ls := by
  induction ls with
  | nil => exact absurd rfl hne
  | cons l rest ih =>
      cases rest with
      | nil =>
          show pySplitNlAux (joinNl [l]) [] = [l]
          have hl : '\n' ∉ l := h l (List.mem_singleton.mpr rfl)
          have : joinNl [l] = l ++ [] := by simp [joinNl]
          rw [this, pySplitNlAux_append_line l [] [] hl, pySplitNlAux]
          simp
      | cons l2 rest2 =>
          have hl : '\n' ∉ l := h l (List.mem_cons_self l _)
          have hrest : pySplitNlAux (joinNl (l2 :: rest2)) [] = l2 :: rest2 :=
            ih (by simp) (fun x hx => h x (List.mem_cons_of_mem l hx))
          rw [joinNl_cons l (l2 :: rest2) (by simp)]
          show pySplitNlAux (l ++ '\n' :: joinNl (l2 :: rest2)) [] = l :: l2 :: rest2
          rw [pySplitNlAux_append_line l _ [] hl, pySplitNlAux]
          simp [hrest]

/-- Occurrences in a `'\n'`-join are the per-line occurrences summed, for a
nonempty newline-free pattern. -/
theorem countOccs_joinNl (ls : List (List Char)) (pat : List Char)
    (hp : pat ≠ []) (hn : '\n' ∉ pat) :
    countOccs (joinNl ls) pat = (ls.map (fun l => countOccs l pat)).sum := by
  induction ls with
  | nil => simp [joinNl, countOccs_nil]
  | cons l rest ih =>
      cases rest with
      | nil => simp [joinNl]
      | cons l2 rest2 =>
          rw [joinNl_cons l (l2 :: rest2) (by simp),
            countOccs_append_cons l '\n' (joinNl (l2 :: rest2)) pat hn,
            countOccs_cons_of_notMem hp hn, ih]
          simp

/-! ## Small counting corollaries and concrete character facts -/

theorem countOccs_eq_zero_of_length_lt {s pat : List Char} (h : s.length < pat.length) :
    countOccs s pat = 0 := by
  induction s with
  | nil => rfl
  | cons c z ih =>
      rw [countOccs_cons]
      have hnp : pat.isPrefixOf (c :: z) = false := by
        rw [Bool.eq_false_iff]
        intro hb
        have := (List.isPrefixOf_iff_prefix.mp hb).length_le
        omega
      rw [hnp]
      have := ih (Nat.lt_of_le_of_lt (Nat.le_succ z.length) h)
      simpa using this

theorem countOccs_self {pat : List Char} (h : pat ≠ []) : countOccs pat pat = 1 := by
  cases pat with
  | nil => exact absurd rfl h
  | cons p pr =>
      rw [countOccs_cons, List.isPrefixOf_iff_prefix.mpr (List.prefix_refl _)]
      rw [countOccs_eq_zero_of_length_lt (by simp)]
      simp

theorem countOccs_eq_zero_of_notMem {s pat : List Char} (c : Char)
    (hc : c ∈ pat) (hs : c ∉ s) : countOccs s pat = 0 := by
  induction s with
  | nil => rfl
  | cons x z ih =>
      rw [countOccs_cons]
      have hnp : pat.isPrefixOf (x :: z) = false := by
        rw [Bool.eq_false_iff]
        intro hb
        exact absurd ((List.isPrefixOf_iff_prefix.mp hb).subset hc) hs
      rw [hnp]
      have := ih (fun hmem => hs (List.mem_cons_of_mem x hmem))
      simpa using this

theorem countOccs_eq_zero_of_not_contains {l pat : List Char} (hp : pat ≠ [])
    (h : listContains l pat = false) : countOccs l pat = 0 := by
  by_contra hne
  rw [(listContains_iff_countOccs l pat hp).mpr hne] at h
  cases h

theorem marker_ne_nil : SECTION_MARKER ≠ [] := by decide

theorem next_ne_nil : NEXT_SECTION_CALL ≠ [] := by decide

theorem next_no_ws : ∀ c ∈ NEXT_SECTION_CALL, pyIsSpace c = false := by decide

theorem newline_not_mem_marker : '\n' ∉ SECTION_MARKER := by decide

theorem newline_not_mem_next : '\n' ∉ NEXT_SECTION_CALL := by decide

theorem hash_mem_marker : '#' ∈ SECTION_MARKER := by decide

theorem target_indent_ws : ∀ c ∈ TARGET_INDENT, pyIsSpace c = true := by decide

/-! ## Facts about the marker finalization pass -/

/-- Every line output by the `_replace_section_marker` line pass is free of the
sentinel: kept lines by the filter, the rewritten line because it consists of
whitespace and `self.next_section()`, neither of which contains `#`. -/
theorem replaceMarkerLines_marker_free (ls : List (List Char)) :
    ∀ l ∈ replaceMarkerLines ls, countOccs l SECTION_MARKER = 0 := by
  induction ls with
  | nil => intro l hl; cases hl
  | cons x rest ih =>
      intro l hl
      rw [replaceMarkerLines] at hl
      by_cases hx : listContains x SECTION_MARKER = true
      · rw [if_pos hx, List.mem_cons] at hl
        rcases hl with rfl | hl
        · refine countOccs_eq_zero_of_notMem '#' hash_mem_marker ?_
          intro hmem
          rcases List.mem_append.mp hmem with h1 | h2
          · have := List.mem_takeWhile_imp h1
            simp [pyIsSpace] at this
          · revert h2
            decide
        · have := List.mem_filter.mp hl
          refine countOccs_eq_zero_of_not_contains marker_ne_nil ?_
          simpa using this.2
      · rw [if_neg hx, List.mem_cons] at hl
        rcases hl with rfl | hl
        · exact countOccs_eq_zero_of_not_contains marker_ne_nil (by simpa using hx)
        · exact ih l hl

/-- Evaluating the line pass when a marker-free zone precedes the first
sentinel line. -/
theorem replaceMarkerLines_append (pre : List (List Char))
    (hpre : ∀ l ∈ pre, listContains l SECTION_MARKER = false)
    (ml : List Char) (hml : listContains ml SECTION_MARKER = true)
    (rest : List (List Char)) :
    replaceMarkerLines (pre ++ ml :: rest) =
      pre ++ (ml.takeWhile pyIsSpace ++ NEXT_SECTION_CALL)
        :: rest.filter (fun x => !(listContains x SECTION_MARKER)) := by
  induction pre with
  | nil => rw [List.nil_append, replaceMarkerLines, if_pos hml, List.nil_append]
  | cons p pre ih =>
      have hp : listContains p SECTION_MARKER = false := hpre p (List.mem_cons_self p pre)
      rw [List.cons_append, replaceMarkerLines, if_neg (by simp [hp]),
        ih (fun l hl => hpre l (List.mem_cons_of_mem p hl)), List.cons_append]

/-- `_replace_section_marker` on a join of newline-free lines, at least one of
which holds the sentinel, is the join of the line pass. -/
theorem replaceSectionMarker_joinNl (ls : List (List Char)) (hne : ls ≠ [])
    (hnl : ∀ l ∈ ls, '\n' ∉ l)
    (hm : ∃ l ∈ ls, listContains l SECTION_MARKER = true) :
    replaceSectionMarker (joinNl ls) = joinNl (replaceMarkerLines ls) := by
  unfold replaceSectionMarker
  rw [pySplitNl_joinNl ls hne hnl]
  rw [if_pos (List.any_eq_true.mpr (by simpa using hm))]

/-! ## The continuation path of `ensure_section_addition` in line form -/

/-- The line list built by the continuation branch of `ensure_section_addition`
just before marker finalization: previous lines up to the insertion offset,
the four header lines, the reindented content lines, the remaining previous
lines. -/
def insertedLines (existing ai : List Char) : List (List Char) :=
  let lines := pySplitNl existing
  let insertPos := findConstructInsertPosition lines
  lines.take insertPos ++ (newSectionHeader ++ (contentLines ai).map reindentLine)
    ++ lines.drop insertPos

theorem ensureSectionAddition_continuation (existing ai : List Char)
    (h : (pyStrip existing).isEmpty = false) :
    ensureSectionAddition existing ai =
      replaceSectionMarker (joinNl (insertedLines existing ai)) := by
  unfold ensureSectionAddition insertedLines
  rw [if_neg (by simp [h])]

theorem contentLines_no_newline (ai : List Char) :
    ∀ x ∈ contentLines ai, '\n' ∉ x := by
  intro x hx
  unfold contentLines at hx
  by_cases he : (extractNewContent ai).isEmpty = true
  · rw [if_pos he] at hx
    cases hx
  · rw [if_neg he] at hx
    exact pySplitNl_no_newline _ x hx

theorem reindentLine_no_newline (x : List Char) (hx : '\n' ∉ x) :
    '\n' ∉ reindentLine x := by
  unfold reindentLine
  by_cases h1 : (pyStrip x).isEmpty = true
  · simp [h1]
  · rw [if_pos (by simp [h1])]
    by_cases h2 : TARGET_INDENT.isPrefixOf x = true
    · simpa [h2] using hx
    · rw [if_neg (by simp [h2])]
      intro hmem
      rcases List.mem_append.mp hmem with hA | hB
      · revert hA
        decide
      · exact hx hB

theorem insertedLines_no_newline (existing ai : List Char) :
    ∀ l ∈ insertedLines existing ai, '\n' ∉ l := by
  intro l hl
  unfold insertedLines at hl
  simp only [List.mem_append] at hl
  rcases hl with (h1 | (h2 | h3)) | h4
  · exact pySplitNl_no_newline existing l (List.take_subset _ _ h1)
  · unfold newSectionHeader at h2
    simp only [List.mem_cons, List.not_mem_nil, or_false] at h2
    rcases h2 with rfl | rfl | rfl | rfl <;> decide
  · obtain ⟨x, hx, rfl⟩ := List.mem_map.mp h3
    exact reindentLine_no_newline x (contentLines_no_newline ai x hx)
  · exact pySplitNl_no_newline existing l (List.drop_subset _ _ h4)

theorem insertedLines_ne_nil (existing ai : List Char) :
    insertedLines existing ai ≠ [] := by
  unfold insertedLines newSectionHeader
  simp

theorem marker_line_mem_insertedLines (existing ai : List Char) :
    (TARGET_INDENT ++ SECTION_MARKER) ∈ insertedLines existing ai := by
  unfold insertedLines newSectionHeader
  simp

/-- On the continuation path, `ensure_section_addition` is the join of the
marker line pass applied to the built line list. -/
theorem ensureSectionAddition_marker_pass (existing ai : List Char)
    (h : (pyStrip existing).isEmpty = false) :
    ensureSectionAddition existing ai =
      joinNl (replaceMarkerLines (insertedLines existing ai)) := by
  rw [ensureSectionAddition_continuation existing ai h]
  exact replaceSectionMarker_joinNl _ (insertedLines_ne_nil existing ai)
    (insertedLines_no_newline existing ai)
    ⟨TARGET_INDENT ++ SECTION_MARKER, marker_line_mem_insertedLines existing ai, by decide⟩

/-! ## First-round stripping facts -/

theorem stripMarkersAndSections_marker_count (code : List Char) :
    countOccs (stripMarkersAndSections code) SECTION_MARKER = 0 := by
  unfold stripMarkersAndSections
  rw [countOccs_append_cons _ '\n' [] SECTION_MARKER newline_not_mem_marker]
  have h1 : countOccs ['\n'] SECTION_MARKER = 0 := by decide
  have h2 : countOccs (joinNl ((pySplitNl code).filter
      (fun l => !(listContains l SECTION_MARKER)
        && !(listContains (pyStrip l) NEXT_SECTION_CALL)))) SECTION_MARKER = 0 := by
    rw [countOccs_joinNl _ _ marker_ne_nil newline_not_mem_marker]
    apply List.sum_eq_zero
    intro x hx
    obtain ⟨l, hl, rfl⟩ := List.mem_map.mp hx
    have hf := (List.mem_filter.mp hl).2
    have hm : listContains l SECTION_MARKER = false := by
      rcases Bool.and_eq_true .. |>.mp hf with ⟨ha, _⟩
      simpa using ha
    exact countOccs_eq_zero_of_not_contains marker_ne_nil hm
  have h3 := countOccs_le_of_infix_part SECTION_MARKER (pyStrip_infix_self (joinNl ((pySplitNl code).filter
      (fun l => !(listContains l SECTION_MARKER)
        && !(listContains (pyStrip l) NEXT_SECTION_CALL)))))
  omega

theorem stripMarkersAndSections_next_count (code : List Char) :
    countOccs (stripMarkersAndSections code) NEXT_SECTION_CALL = 0 := by
  unfold stripMarkersAndSections
  rw [countOccs_append_cons _ '\n' [] NEXT_SECTION_CALL newline_not_mem_next]
  have h1 : countOccs ['\n'] NEXT_SECTION_CALL = 0 := by decide
  have h2 : countOccs (joinNl ((pySplitNl code).filter
      (fun l => !(listContains l SECTION_MARKER)
        && !(listContains (pyStrip l) NEXT_SECTION_CALL)))) NEXT_SECTION_CALL = 0 := by
    rw [countOccs_joinNl _ _ next_ne_nil newline_not_mem_next]
    apply List.sum_eq_zero
    intro x hx
    obtain ⟨l, hl, rfl⟩ := List.mem_map.mp hx
    have hf := (List.mem_filter.mp hl).2
    have hm : listContains (pyStrip l) NEXT_SECTION_CALL = false := by
      rcases Bool.and_eq_true .. |>.mp hf with ⟨_, hb⟩
      simpa using hb
    rw [← countOccs_pyStrip l NEXT_SECTION_CALL next_ne_nil next_no_ws]
    exact countOccs_eq_zero_of_not_contains next_ne_nil hm
  have h3 := countOccs_le_of_infix_part NEXT_SECTION_CALL (pyStrip_infix_self (joinNl ((pySplitNl code).filter
      (fun l => !(listContains l SECTION_MARKER)
        && !(listContains (pyStrip l) NEXT_SECTION_CALL)))))
  omega

/-- **C2** (confirmed).  For every previous program text and every generated
fragment, the full program text returned by `ensure_section_addition` — the
first-round path through `_strip_markers_and_sections` as well as the
continuation path through `_replace_section_marker` — contains zero
occurrences of the `SECTION_MARKER` sentinel `# <<SECTION_BREAK>>`. -/
theorem assembled_text_contains_no_marker (existing ai : List Char) :
    countOccs (ensureSectionAddition existing ai) SECTION_MARKER = 0 := by
  by_cases h : (pyStrip existing).isEmpty = true
  · unfold ensureSectionAddition
    rw [if_pos h]
    exact stripMarkersAndSections_marker_count (stripClean ai)
  · rw [ensureSectionAddition_marker_pass existing ai (by simpa using h)]
    rw [countOccs_joinNl _ _ marker_ne_nil newline_not_mem_marker]
    apply List.sum_eq_zero
    intro x hx
    obtain ⟨l, hl, rfl⟩ := List.mem_map.mp hx
    exact replaceMarkerLines_marker_free _ l hl

/-! ## Line-level consequences of a marker-free text -/

theorem not_contains_of_countOccs_zero {l pat : List Char} (hp : pat ≠ [])
    (h : countOccs l pat = 0) : listContains l pat = false := by
  rw [Bool.eq_false_iff]
  intro hb
  exact (listContains_iff_countOccs l pat hp).mp hb h

theorem pySplitNl_counts_zero {s pat : List Char} (hp : pat ≠ []) (hn : '\n' ∉ pat)
    (h : countOccs s pat = 0) : ∀ l ∈ pySplitNl s, countOccs l pat = 0 := by
  intro l hl
  have hsum : ((pySplitNl s).map (fun l => countOccs l pat)).sum = 0 := by
    rw [← countOccs_joinNl _ _ hp hn, joinNl_pySplitNl]
    exact h
  exact List.sum_eq_zero_iff.mp hsum _ (List.mem_map_of_mem _ hl)

/-- With a sentinel-free previous text, the marker pass of the continuation
path rewrites exactly the inserted sentinel line and filters only the content
lines. -/
theorem replaceMarkerLines_insertedLines (existing ai : List Char)
    (hM : countOccs existing SECTION_MARKER = 0) :
    replaceMarkerLines (insertedLines existing ai) =
      (pySplitNl existing).take (findConstructInsertPosition (pySplitNl existing))
        ++ ([[], "        # 新分段".data, TARGET_INDENT ++ NEXT_SECTION_CALL, []]
        ++ (((contentLines ai).map reindentLine).filter
              (fun x => !(listContains x SECTION_MARKER))
        ++ (pySplitNl existing).drop (findConstructInsertPosition (pySplitNl existing)))) := by
  have hfree : ∀ l ∈ pySplitNl existing, listContains l SECTION_MARKER = false :=
    fun l hl => not_contains_of_countOccs_zero marker_ne_nil
      (pySplitNl_counts_zero marker_ne_nil newline_not_mem_marker hM l hl)
  have hassoc : insertedLines existing ai =
      ((pySplitNl existing).take (findConstructInsertPosition (pySplitNl existing))
          ++ [[], "        # 新分段".data])
        ++ (TARGET_INDENT ++ SECTION_MARKER)
        :: ([] :: ((contentLines ai).map reindentLine
            ++ (pySplitNl existing).drop (findConstructInsertPosition (pySplitNl existing)))) := by
    unfold insertedLines newSectionHeader
    simp
  rw [hassoc, replaceMarkerLines_append _ ?hpre _ (by decide) _]
  case hpre =>
    intro l hl
    rcases List.mem_append.mp hl with h1 | h2
    · exact hfree l (List.take_subset _ _ h1)
    · simp only [List.mem_cons, List.not_mem_nil, or_false] at h2
      rcases h2 with rfl | rfl <;> decide
  have htw : (TARGET_INDENT ++ SECTION_MARKER).takeWhile pyIsSpace = TARGET_INDENT := by decide
  have hfilter : ([] :: ((contentLines ai).map reindentLine
      ++ (pySplitNl existing).drop (findConstructInsertPosition (pySplitNl existing)))).filter
        (fun x => !(listContains x SECTION_MARKER))
      = [] :: (((contentLines ai).map reindentLine).filter
            (fun x => !(listContains x SECTION_MARKER))
          ++ (pySplitNl existing).drop (findConstructInsertPosition (pySplitNl existing))) := by
    rw [List.filter_cons_of_pos (by decide), List.filter_append]
    congr 1
    congr 1
    apply List.filter_eq_self.mpr
    intro a ha
    simp [hfree a (List.drop_subset _ _ ha)]
  rw [htw, hfilter]
  simp

/-! ## Counting the section-break directive (claim C1) -/

theorem reindentLine_next_count {x : List Char}
    (h : countOccs x NEXT_SECTION_CALL = 0) :
    countOccs (reindentLine x) NEXT_SECTION_CALL = 0 := by
  unfold reindentLine
  by_cases h1 : (pyStrip x).isEmpty = true
  · simp [h1, countOccs_nil]
  · rw [if_pos (by simp [h1])]
    by_cases h2 : TARGET_INDENT.isPrefixOf x = true
    · simpa [h2] using h
    · rw [if_neg (by simp [h2]),
        countOccs_ws_append x NEXT_SECTION_CALL target_indent_ws next_ne_nil next_no_ws]
      exact h

theorem contentLines_next_count (ai : List Char)
    (h : countOccs (extractNewContent ai) NEXT_SECTION_CALL = 0) :
    ∀ x ∈ contentLines ai, countOccs x NEXT_SECTION_CALL = 0 := by
  intro x hx
  unfold contentLines at hx
  by_cases he : (extractNewContent ai).isEmpty = true
  · rw [if_pos he] at hx
    cases hx
  · rw [if_neg he] at hx
    exact pySplitNl_counts_zero next_ne_nil newline_not_mem_next h x hx

/-- **C1** (corrected).  The Script Assembler `ensure_section_addition` applied
to round 0 (previous text blank) returns text with zero occurrences of the
section-break directive `self.next_section()`.  Applied to a round `k ≥ 1`
(previous text non-blank), the output contains exactly one more occurrence of
the directive than the previous text **provided** the extracted new content of
the fragment contains no occurrence of the directive itself and the previous
text contains no occurrence of the `SECTION_MARKER` sentinel; the unqualified
claim is refuted by `scriptAssembler_directive_count_counterexample`. -/
theorem scriptAssembler_directive_count (existing ai : List Char) :
    ((pyStrip existing).isEmpty = true →
      countOccs (ensureSectionAddition existing ai) NEXT_SECTION_CALL = 0) ∧
    ((pyStrip existing).isEmpty = false →
      countOccs (extractNewContent ai) NEXT_SECTION_CALL = 0 →
      countOccs existing SECTION_MARKER = 0 →
      countOccs (ensureSectionAddition existing ai) NEXT_SECTION_CALL
        = countOccs existing NEXT_SECTION_CALL + 1) := by
  constructor
  · intro h
    unfold ensureSectionAddition
    rw [if_pos h]
    exact stripMarkersAndSections_next_count (stripClean ai)
  · intro h hN hM
    rw [ensureSectionAddition_marker_pass existing ai h,
      replaceMarkerLines_insertedLines existing ai hM,
      countOccs_joinNl _ _ next_ne_nil newline_not_mem_next]
    rw [List.map_append, List.sum_append, List.map_append, List.sum_append,
      List.map_append, List.sum_append]
    have hB : (([[], "        # 新分段".data, TARGET_INDENT ++ NEXT_SECTION_CALL, []]
        : List (List Char)).map (fun l => countOccs l NEXT_SECTION_CALL)).sum = 1 := by
      decide
    have hC : ((((contentLines ai).map reindentLine).filter
        (fun x => !(listContains x SECTION_MARKER))).map
          (fun l => countOccs l NEXT_SECTION_CALL)).sum = 0 := by
      apply List.sum_eq_zero
      intro v hv
      obtain ⟨y, hy, rfl⟩ := List.mem_map.mp hv
      have hy2 := (List.mem_filter.mp hy).1
      obtain ⟨z, hz, rfl⟩ := List.mem_map.mp hy2
      exact reindentLine_next_count (contentLines_next_count ai hN z hz)
    have hAD : (((pySplitNl existing).take
          (findConstructInsertPosition (pySplitNl existing))).map
            (fun l => countOccs l NEXT_SECTION_CALL)).sum
        + (((pySplitNl existing).drop
          (findConstructInsertPosition (pySplitNl existing))).map
            (fun l => countOccs l NEXT_SECTION_CALL)).sum
        = countOccs existing NEXT_SECTION_CALL := by
      rw [← List.sum_append, ← List.map_append, List.take_append_drop]
      conv_rhs => rw [← joinNl_pySplitNl existing]
      rw [countOccs_joinNl _ _ next_ne_nil newline_not_mem_next]
    rw [hB, hC]
    omega

set_option maxRecDepth 40000 in
/-- **C1 counterexample.**  With the non-blank previous text
`class S(Scene):\n    def construct(self):\n        a = 1` and the fragment
`self.next_section()`, the assembled output contains two occurrences of the
directive (the finalized marker plus the one in the fragment), not one more
than the previous text's zero. -/
theorem scriptAssembler_directive_count_counterexample :
    (pyStrip "class S(Scene):\n    def construct(self):\n        a = 1".data).isEmpty = false ∧
    countOccs (ensureSectionAddition
        "class S(Scene):\n    def construct(self):\n        a = 1".data
        "self.next_section()".data) NEXT_SECTION_CALL
      ≠ countOccs "class S(Scene):\n    def construct(self):\n        a = 1".data
          NEXT_SECTION_CALL + 1 := by
  constructor
  · decide
  · decide

set_option maxRecDepth 40000 in
/-- Witness for `scriptAssembler_directive_count` at concrete inputs. -/
theorem scriptAssembler_directive_count_witness :
    countOccs (ensureSectionAddition [] "x = 1".data) NEXT_SECTION_CALL = 0 ∧
    countOccs (ensureSectionAddition
        "class S(Scene):\n    def construct(self):\n        a = 1".data
        "# <<SECTION_BREAK>>\n    b = 2".data) NEXT_SECTION_CALL
      = countOccs "class S(Scene):\n    def construct(self):\n        a = 1".data
          NEXT_SECTION_CALL + 1 :=
  ⟨(scriptAssembler_directive_count [] ("x = 1".data)).1 (by decide),
   (scriptAssembler_directive_count
      ("class S(Scene):\n    def construct(self):\n        a = 1".data)
      ("# <<SECTION_BREAK>>\n    b = 2".data)).2 (by decide) (by decide) (by decide)⟩

/-! ## The exact spliced block (claim C6) -/

theorem not_isPrefixOf_cons_of_head_ne {p : Char} {pr : List Char} {c : Char}
    {z : List Char} (h : p ≠ c) : (p :: pr).isPrefixOf (c :: z) = false := by
  have : (p == c) = false := by
    simp [beq_eq_false_iff_ne]
    exact h
  simp [List.isPrefixOf, this]

/-- Prepending whitespace cannot create occurrences of a pattern whose first
character is not whitespace. -/
theorem countOccs_ws_append_head {w : List Char} (x : List Char) {p : Char}
    {pr : List Char} (hws : ∀ c ∈ w, pyIsSpace c = true) (hp : pyIsSpace p = false) :
    countOccs (w ++ x) (p :: pr) = countOccs x (p :: pr) := by
  induction w with
  | nil => simp
  | cons c w ih =>
      have hc : p ≠ c := fun h => by
        have h1 := hws c (List.mem_cons_self c w)
        rw [← h] at h1
        rw [h1] at hp
        cases hp
      rw [List.cons_append, countOccs_cons, not_isPrefixOf_cons_of_head_ne hc]
      have := ih (fun y hy => hws y (List.mem_cons_of_mem c hy))
      simpa using this

theorem reindentLine_marker_count {x : List Char}
    (h : countOccs x SECTION_MARKER = 0) :
    countOccs (reindentLine x) SECTION_MARKER = 0 := by
  unfold reindentLine
  by_cases h1 : (pyStrip x).isEmpty = true
  · simp [h1, countOccs_nil]
  · rw [if_pos (by simp [h1])]
    by_cases h2 : TARGET_INDENT.isPrefixOf x = true
    · simpa [h2] using h
    · rw [if_neg (by simp [h2])]
      show countOccs (TARGET_INDENT ++ x) SECTION_MARKER = 0
      have hm : SECTION_MARKER = '#' :: "# <<SECTION_BREAK>>".data.tail := by decide
      rw [hm] at h ⊢
      rw [countOccs_ws_append_head x target_indent_ws (by decide)]
      exact h

theorem contentLines_marker_count (ai : List Char)
    (h : countOccs (extractNewContent ai) SECTION_MARKER = 0) :
    ∀ x ∈ contentLines ai, countOccs x SECTION_MARKER = 0 := by
  intro x hx
  unfold contentLines at hx
  by_cases he : (extractNewContent ai).isEmpty = true
  · rw [if_pos he] at hx
    cases hx
  · rw [if_neg he] at hx
    exact pySplitNl_counts_zero marker_ne_nil newline_not_mem_marker h x hx

/-- **C6** (corrected).  On a continuation round with a sentinel-free previous
text and a fragment whose extracted content is sentinel-free, the assembled
text's lines are exactly: the previous lines up to the insertion offset, a
blank line, the comment line, the finalized directive line at the fixed
eight-space indent, a blank line, then each extracted content line passed
through `reindentLine` (prefixed with the eight-space target indent **unless
it already starts with it**, whitespace-only lines becoming empty), then the
remaining previous lines.  Dedenting happens only inside `extractNewContent`,
i.e. only when the fragment contained the sentinel; the claim's unconditional
dedent-then-reindent normalization is refuted by
`splicedContent_normalizer_counterexample`. -/
theorem splicedContent_lines (existing ai : List Char)
    (h : (pyStrip existing).isEmpty = false)
    (hM : countOccs existing SECTION_MARKER = 0)
    (hC : countOccs (extractNewContent ai) SECTION_MARKER = 0) :
    pySplitNl (ensureSectionAddition existing ai)
      = (pySplitNl existing).take (findConstructInsertPosition (pySplitNl existing))
        ++ ([[], "        # 新分段".data, TARGET_INDENT ++ NEXT_SECTION_CALL, []]
        ++ ((contentLines ai).map reindentLine
        ++ (pySplitNl existing).drop (findConstructInsertPosition (pySplitNl existing)))) := by
  have hfilt : ((contentLines ai).map reindentLine).filter
      (fun x => !(listContains x SECTION_MARKER)) = (contentLines ai).map reindentLine := by
    apply List.filter_eq_self.mpr
    intro a ha
    obtain ⟨z, hz, rfl⟩ := List.mem_map.mp ha
    have hz0 := contentLines_marker_count ai hC z hz
    simp [not_contains_of_countOccs_zero marker_ne_nil (reindentLine_marker_count hz0)]
  rw [ensureSectionAddition_marker_pass existing ai h,
    replaceMarkerLines_insertedLines existing ai hM, hfilt]
  apply pySplitNl_joinNl
  · simp
  · intro l hl
    simp only [List.mem_append] at hl
    rcases hl with h1 | (h2 | (h3 | h4))
    · exact pySplitNl_no_newline existing l (List.take_subset _ _ h1)
    · simp only [List.mem_cons, List.not_mem_nil, or_false] at h2
      rcases h2 with rfl | rfl | rfl | rfl <;> decide
    · obtain ⟨x, hx, rfl⟩ := List.mem_map.mp h3
      exact reindentLine_no_newline x (contentLines_no_newline ai x hx)
    · exact pySplitNl_no_newline existing l (List.drop_subset _ _ h4)

set_option maxRecDepth 40000 in
/-- **C6 counterexample.**  For the marker-free fragment
`x = 1\n        y = 2`, the assembled output keeps the already-indented line
`        y = 2` unchanged, while the claimed dedent-then-reindent
normalization (`normalizeSpecLines`, written from the spec's words) would
produce `                y = 2` instead: the fixed indent is **not** prefixed
to every non-blank line, and no dedent pass runs without the sentinel. -/
theorem splicedContent_normalizer_counterexample :
    "        y = 2".data ∈ pySplitNl (ensureSectionAddition
        "class S(Scene):\n    def construct(self):\n        a = 1".data
        "x = 1\n        y = 2".data) ∧
    "        y = 2".data ∉ normalizeSpecLines
        (stripClean "x = 1\n        y = 2".data) ∧
    "                y = 2".data ∈ normalizeSpecLines
        (stripClean "x = 1\n        y = 2".data) := by
  refine ⟨by decide, by decide, by decide⟩

set_option maxRecDepth 40000 in
/-- Witness for `splicedContent_lines` at concrete inputs. -/
theorem splicedContent_lines_witness :
    pySplitNl (ensureSectionAddition
        "class S(Scene):\n    def construct(self):\n        a = 1".data
        "# <<SECTION_BREAK>>\n    b = 2".data)
      = (pySplitNl "class S(Scene):\n    def construct(self):\n        a = 1".data).take
          (findConstructInsertPosition
            (pySplitNl "class S(Scene):\n    def construct(self):\n        a = 1".data))
        ++ ([[], "        # 新分段".data, TARGET_INDENT ++ NEXT_SECTION_CALL, []]
        ++ ((contentLines "# <<SECTION_BREAK>>\n    b = 2".data).map reindentLine
        ++ (pySplitNl "class S(Scene):\n    def construct(self):\n        a = 1".data).drop
          (findConstructInsertPosition
            (pySplitNl "class S(Scene):\n    def construct(self):\n        a = 1".data)))) :=
  splicedContent_lines
    ("class S(Scene):\n    def construct(self):\n        a = 1".data)
    ("# <<SECTION_BREAK>>\n    b = 2".data) (by decide) (by decide) (by decide)

/-! ## Dedent characterization (claim C7) -/

/-- The non-blank lines of a text, as filtered by `_remove_common_indent`. -/
def nonBlankLines (code : List Char) : List (List Char) :=
  (pySplitLines code).filter (fun l => !(pyStrip l).isEmpty)

/-- The minimum leading-whitespace width over a list of lines, computed the
way `_remove_common_indent` folds Python's `min`. -/
def minIndentOf : List (List Char) → Nat
  | [] => 0
  | l0 :: rest => (rest.map indentWidth).foldl min (indentWidth l0)

theorem foldl_min_le_init (xs : List Nat) (a : Nat) : xs.foldl min a ≤ a := by
  induction xs generalizing a with
  | nil => exact Nat.le_refl a
  | cons x xs ih => exact Nat.le_trans (ih (min a x)) (Nat.min_le_left a x)

theorem foldl_min_le_mem (xs : List Nat) (a : Nat) : ∀ x ∈ xs, xs.foldl min a ≤ x := by
  induction xs generalizing a with
  | nil => intro x hx; cases hx
  | cons y ys ih =>
      intro x hx
      rcases List.mem_cons.mp hx with rfl | hx
      · exact Nat.le_trans (foldl_min_le_init ys (min a x)) (Nat.min_le_right a x)
      · exact ih (min a y) x hx

theorem foldl_min_attained (xs : List Nat) (a : Nat) :
    xs.foldl min a = a ∨ xs.foldl min a ∈ xs := by
  induction xs generalizing a with
  | nil => exact Or.inl rfl
  | cons y ys ih =>
      rcases ih (min a y) with h | h
      · rcases min_choice a y with hm | hm
        · exact Or.inl (by rw [List.foldl_cons, h, hm])
        · exact Or.inr (by rw [List.foldl_cons, h, hm]; exact List.mem_cons_self y ys)
      · exact Or.inr (List.mem_cons_of_mem y h)

/-- A non-blank line is strictly longer than its leading-whitespace run. -/
theorem indentWidth_lt_length {l : List Char} (h : (pyStrip l).isEmpty = false) :
    indentWidth l < l.length := by
  have hle : indentWidth l ≤ l.length := by
    unfold indentWidth
    exact (List.takeWhile_prefix pyIsSpace).length_le
  rcases Nat.lt_or_ge (indentWidth l) l.length with hlt | hge
  · exact hlt
  · exfalso
    have heq : l.takeWhile pyIsSpace = l :=
      (List.takeWhile_prefix pyIsSpace).eq_of_length (Nat.le_antisymm hle hge)
    have hallws : ∀ c ∈ l, pyIsSpace c = true := fun c hc =>
      List.mem_takeWhile_imp (heq ▸ hc)
    have hlstrip : pyLstrip l = [] := by
      unfold pyLstrip
      rw [List.dropWhile_eq_nil_iff]
      intro c hc
      exact hallws c hc
    have : pyStrip l = [] := by
      unfold pyStrip
      rw [hlstrip]
      rfl
    rw [this] at h
    cases h

/-- **C7** (corrected).  `_remove_common_indent` discards blank lines, cuts
exactly the minimum leading-whitespace width of the non-blank lines from each
remaining line, and strips surrounding whitespace off the joined result; the
computed width is a lower bound of, and is attained by, the non-blank lines'
indentation widths.  The claimed blank-line preservation and exact per-line
shift are refuted by `removeCommonIndent_counterexample`. -/
theorem removeCommonIndent_characterization (code : List Char) :
    (nonBlankLines code = [] → removeCommonIndent code = []) ∧
    (∀ l0 rest, nonBlankLines code = l0 :: rest →
      removeCommonIndent code
          = pyStrip (joinNl ((l0 :: rest).map
              (fun l => l.drop (minIndentOf (l0 :: rest)))))
        ∧ (∀ l ∈ l0 :: rest, minIndentOf (l0 :: rest) ≤ indentWidth l)
        ∧ (∃ l ∈ l0 :: rest, indentWidth l = minIndentOf (l0 :: rest))) := by
  constructor
  · intro h
    unfold removeCommonIndent
    unfold nonBlankLines at h
    rw [h]
  · intro l0 rest h
    have hmem : ∀ l ∈ l0 :: rest, (pyStrip l).isEmpty = false := by
      intro l hl
      unfold nonBlankLines at h
      have := List.of_mem_filter (p := fun l => !(pyStrip l).isEmpty) (h ▸ hl)
      simpa using this
    have hlow : ∀ l ∈ l0 :: rest, minIndentOf (l0 :: rest) ≤ indentWidth l := by
      intro l hl
      rcases List.mem_cons.mp hl with rfl | hl
      · exact foldl_min_le_init _ _
      · exact foldl_min_le_mem _ _ _ (List.mem_map_of_mem indentWidth hl)
    refine ⟨?_, hlow, ?_⟩
    · unfold removeCommonIndent
      unfold nonBlankLines at h
      rw [h]
      show pyStrip (joinNl ((l0 :: rest).map
          (fun l => if minIndentOf (l0 :: rest) < l.length
            then l.drop (minIndentOf (l0 :: rest)) else l))) = _
      congr 1
      congr 1
      apply List.map_congr_left
      intro l hl
      rw [if_pos]
      exact Nat.lt_of_le_of_lt (hlow l hl) (indentWidth_lt_length (hmem l hl))
    · rcases foldl_min_attained (rest.map indentWidth) (indentWidth l0) with hA | hA
      · exact ⟨l0, List.mem_cons_self l0 rest, hA.symm⟩
      · obtain ⟨l, hl, hw⟩ := List.mem_map.mp hA
        exact ⟨l, List.mem_cons_of_mem l0 hl, hw⟩

set_option maxRecDepth 40000 in
/-- **C7 counterexample.**  On `    a\n\n  b` the dedent step returns `a\nb`
(blank line removed, first line stripped past the common width by the final
`strip`), while the claimed behavior (`dedentSpec`, written from the spec's
words: shift every line by the common width 2, blank lines kept in place)
yields `  a\n\nb`. -/
theorem removeCommonIndent_counterexample :
    removeCommonIndent "    a\n\n  b".data = "a\nb".data ∧
    dedentSpec "    a\n\n  b".data = "  a\n\nb".data ∧
    removeCommonIndent "    a\n\n  b".data ≠ dedentSpec "    a\n\n  b".data := by
  refine ⟨by decide, by decide, by decide⟩

set_option maxRecDepth 40000 in
/-- Witness for `removeCommonIndent_characterization` at a concrete input. -/
theorem removeCommonIndent_characterization_witness :
    removeCommonIndent "  x\n    y".data
        = pyStrip (joinNl ((["  x".data, "    y".data] : List (List Char)).map
            (fun l => l.drop (minIndentOf ["  x".data, "    y".data]))))
      ∧ (∀ l ∈ (["  x".data, "    y".data] : List (List Char)),
          minIndentOf ["  x".data, "    y".data] ≤ indentWidth l)
      ∧ (∃ l ∈ (["  x".data, "    y".data] : List (List Char)),
          indentWidth l = minIndentOf ["  x".data, "    y".data]) :=
  (removeCommonIndent_characterization "  x\n    y".data).2
    ("  x".data) (["    y".data]) (by decide)

/-! ## Characterizing the insertion-point locator (claims C4, C5) -/

/-- Pure rebuild of the loop result: the relative index of the last line that
passes the indent test once the `construct` signature has been seen. -/
def lastQualB (found : Bool) : List (List Char) → Option Nat
  | [] => none
  | l :: rest =>
      match lastQualB (found || listContains l CONSTRUCT_SIG) rest with
      | some j => some (j + 1)
      | none =>
          if (found || listContains l CONSTRUCT_SIG) && indentedNonBlank l then some 0
          else none

/-- Some line at index `≤ n` contains the `construct` signature. -/
def hasSigUpTo (lines : List (List Char)) (n : Nat) : Bool :=
  (List.range (n + 1)).any (fun m => listContains (lines.getD m []) CONSTRUCT_SIG)

/-- Line `n` qualifies for the loop of `_find_construct_insert_position`:
in range, passes the indent-and-non-blank test, and the signature was already
seen (either carried in by `found` or on some line at index `≤ n`). -/
def QualF (found : Bool) (lines : List (List Char)) (n : Nat) : Prop :=
  n < lines.length ∧ indentedNonBlank (lines.getD n []) = true ∧
    (found = true ∨ hasSigUpTo lines n = true)

/-- A non-blank indented body line at or after a signature line (the
qualifying lines of the code's scan, with no carried flag). -/
def BodyLine (lines : List (List Char)) (n : Nat) : Prop :=
  QualF false lines n

instance (found : Bool) (lines : List (List Char)) (n : Nat) :
    Decidable (QualF found lines n) :=
  inferInstanceAs (Decidable (_ ∧ _ ∧ _))

instance (lines : List (List Char)) (n : Nat) : Decidable (BodyLine lines n) :=
  inferInstanceAs (Decidable (QualF false lines n))

theorem hasSigUpTo_iff (lines : List (List Char)) (n : Nat) :
    hasSigUpTo lines n = true
      ↔ ∃ m, m ≤ n ∧ listContains (lines.getD m []) CONSTRUCT_SIG = true := by
  unfold hasSigUpTo
  rw [List.any_eq_true]
  constructor
  · rintro ⟨m, hm, hc⟩
    exact ⟨m, Nat.lt_succ_iff.mp (List.mem_range.mp hm), hc⟩
  · rintro ⟨m, hm, hc⟩
    exact ⟨m, List.mem_range.mpr (Nat.lt_succ_iff.mpr hm), hc⟩

theorem hasSigUpTo_cons_succ (l : List Char) (rest : List (List Char)) (n : Nat) :
    hasSigUpTo (l :: rest) (n + 1)
      = (listContains l CONSTRUCT_SIG || hasSigUpTo rest n) := by
  apply bool_eq_of_iff
  rw [hasSigUpTo_iff, Bool.or_eq_true, hasSigUpTo_iff]
  constructor
  · rintro ⟨m, hm, hc⟩
    cases m with
    | zero => exact Or.inl hc
    | succ m => exact Or.inr ⟨m, Nat.le_of_succ_le_succ hm, hc⟩
  · rintro (hc | ⟨m, hm, hc⟩)
    · exact ⟨0, Nat.zero_le _, hc⟩
    · exact ⟨m + 1, Nat.succ_le_succ hm, hc⟩

theorem hasSigUpTo_cons_zero (l : List Char) (rest : List (List Char)) :
    hasSigUpTo (l :: rest) 0 = listContains l CONSTRUCT_SIG := by
  apply bool_eq_of_iff
  rw [hasSigUpTo_iff]
  constructor
  · rintro ⟨m, hm, hc⟩
    rw [Nat.le_zero.mp hm] at hc
    exact hc
  · intro hc
    exact ⟨0, Nat.le_refl 0, hc⟩

theorem qualF_succ_iff (found : Bool) (l : List Char) (rest : List (List Char))
    (n : Nat) :
    QualF found (l :: rest) (n + 1)
      ↔ QualF (found || listContains l CONSTRUCT_SIG) rest n := by
  unfold QualF
  rw [List.getD_cons_succ, hasSigUpTo_cons_succ]
  constructor
  · rintro ⟨h1, h2, h3⟩
    refine ⟨Nat.lt_of_succ_lt_succ h1, h2, ?_⟩
    rcases h3 with hf | ho
    · rw [hf]
      simp
    · rcases Bool.or_eq_true .. |>.mp ho with hc | hs
      · rw [hc]
        simp
      · exact Or.inr hs
  · rintro ⟨h1, h2, h3⟩
    refine ⟨Nat.succ_lt_succ h1, h2, ?_⟩
    rcases h3 with hf | hs
    · rcases Bool.or_eq_true .. |>.mp hf with hf2 | hc
      · exact Or.inl hf2
      · exact Or.inr (by rw [hc]; simp)
    · exact Or.inr (by rw [hs]; simp)

theorem qualF_zero_iff (found : Bool) (l : List Char) (rest : List (List Char)) :
    QualF found (l :: rest) 0
      ↔ ((found || listContains l CONSTRUCT_SIG) && indentedNonBlank l) = true := by
  unfold QualF
  rw [List.getD_cons_zero, hasSigUpTo_cons_zero]
  constructor
  · rintro ⟨_, h2, h3⟩
    rcases h3 with hf | hc
    · simp [hf, h2]
    · simp [hc, h2]
  · intro h
    rcases Bool.and_eq_true .. |>.mp h with ⟨ho, hi⟩
    refine ⟨Nat.succ_pos _, hi, ?_⟩
    rcases Bool.or_eq_true .. |>.mp ho with hf | hc
    · exact Or.inl hf
    · exact Or.inr hc

theorem lastQualB_none {found : Bool} {ls : List (List Char)}
    (h : lastQualB found ls = none) : ∀ n, ¬ QualF found ls n := by
  induction ls generalizing found with
  | nil =>
      intro n hn
      have := hn.1
      simp at this
  | cons l rest ih =>
      intro n hn
      rw [lastQualB] at h
      cases hq : lastQualB (found || listContains l CONSTRUCT_SIG) rest with
      | some j =>
          rw [hq] at h
          cases h
      | none =>
          rw [hq] at h
          by_cases hc : ((found || listContains l CONSTRUCT_SIG) && indentedNonBlank l) = true
          · rw [if_pos hc] at h
            cases h
          · cases n with
            | zero => exact hc ((qualF_zero_iff found l rest).mp hn)
            | succ n => exact ih hq n ((qualF_succ_iff found l rest n).mp hn)

theorem lastQualB_some {found : Bool} {ls : List (List Char)} {j : Nat}
    (h : lastQualB found ls = some j) :
    j < ls.length ∧ QualF found ls j ∧ ∀ n, QualF found ls n → n ≤ j := by
  induction ls generalizing found j with
  | nil => simp [lastQualB] at h
  | cons l rest ih =>
      rw [lastQualB] at h
      cases hq : lastQualB (found || listContains l CONSTRUCT_SIG) rest with
      | some j2 =>
          rw [hq] at h
          have hj : j = j2 + 1 := (Option.some.inj h).symm
          subst hj
          obtain ⟨h1, h2, h3⟩ := ih hq
          refine ⟨by simpa using Nat.succ_lt_succ h1,
            (qualF_succ_iff found l rest j2).mpr h2, ?_⟩
          intro n hn
          cases n with
          | zero => exact Nat.zero_le _
          | succ n =>
              exact Nat.succ_le_succ (h3 n ((qualF_succ_iff found l rest n).mp hn))
      | none =>
          rw [hq] at h
          by_cases hc : ((found || listContains l CONSTRUCT_SIG) && indentedNonBlank l) = true
          · rw [if_pos hc] at h
            have hj : j = 0 := (Option.some.inj h).symm
            subst hj
            refine ⟨Nat.succ_pos _, (qualF_zero_iff found l rest).mpr hc, ?_⟩
            intro n hn
            cases n with
            | zero => exact Nat.le_refl 0
            | succ n =>
                exact absurd ((qualF_succ_iff found l rest n).mp hn) (lastQualB_none hq n)
          · rw [if_neg hc] at h
            cases h

theorem lastIndentedAux_eq (ls : List (List Char)) (i : Nat) (found : Bool)
    (last : Int) :
    lastIndentedAux ls i found last
      = match lastQualB found ls with
        | some j => ((i + j : Nat) : Int)
        | none => last := by
  induction ls generalizing i found last with
  | nil => rfl
  | cons l rest ih =>
      rw [lastIndentedAux, lastQualB]
      cases hq : lastQualB (found || listContains l CONSTRUCT_SIG) rest with
      | some j =>
          rw [ih (i + 1) _ _, hq]
          push_cast
          ring
      | none =>
          rw [ih (i + 1) _ _, hq]
          by_cases hc : ((found || listContains l CONSTRUCT_SIG) && indentedNonBlank l) = true
          · rw [if_pos hc, if_pos hc]
            simp
          · rw [if_neg hc, if_neg hc]

/-- `_find_construct_insert_position` in terms of the pure scan. -/
theorem findConstructInsertPosition_eq (lines : List (List Char)) :
    findConstructInsertPosition lines
      = match lastQualB false lines with
        | some j => j + 1
        | none =>
            match firstConstructIdx lines with
            | some k => k + 1
            | none => lines.length := by
  unfold findConstructInsertPosition
  rw [lastIndentedAux_eq lines 0 false (-1)]
  cases hq : lastQualB false lines with
  | some j =>
      rw [if_pos (by simp)]
      simp
  | none => rw [if_neg (by simp)]

theorem firstConstructIdx_cons (l : List Char) (rest : List (List Char)) :
    firstConstructIdx (l :: rest)
      = if listContains l CONSTRUCT_SIG = true then some 0
        else Option.map (fun i => i + 1) (firstConstructIdx rest) := by
  unfold firstConstructIdx
  rw [List.findIdx?_cons]
  by_cases hc : listContains l CONSTRUCT_SIG = true
  · rw [if_pos hc, if_pos hc]
  · rw [if_neg hc, if_neg hc, List.findIdx?_succ]

theorem firstConstructIdx_none {lines : List (List Char)}
    (h : firstConstructIdx lines = none) :
    ∀ l ∈ lines, listContains l CONSTRUCT_SIG = false := by
  induction lines with
  | nil => intro l hl; cases hl
  | cons x rest ih =>
      intro l hl
      rw [firstConstructIdx_cons] at h
      by_cases hc : listContains x CONSTRUCT_SIG = true
      · rw [if_pos hc] at h
        cases h
      · rw [if_neg hc] at h
        rcases List.mem_cons.mp hl with rfl | hl
        · simpa using hc
        · exact ih (by simpa using h) l hl

theorem firstConstructIdx_some {lines : List (List Char)} {k : Nat}
    (h : firstConstructIdx lines = some k) :
    k < lines.length ∧ listContains (lines.getD k []) CONSTRUCT_SIG = true := by
  induction lines generalizing k with
  | nil => simp [firstConstructIdx] at h
  | cons x rest ih =>
      rw [firstConstructIdx_cons] at h
      by_cases hc : listContains x CONSTRUCT_SIG = true
      · rw [if_pos hc] at h
        have hk : k = 0 := (Option.some.inj h).symm
        subst hk
        exact ⟨Nat.succ_pos _, by simpa using hc⟩
      · rw [if_neg hc] at h
        cases hq : firstConstructIdx rest with
        | none =>
            rw [hq] at h
            cases h
        | some k2 =>
            rw [hq] at h
            have hk : k = k2 + 1 := (Option.some.inj h).symm
            subst hk
            obtain ⟨h1, h2⟩ := ih hq
            exact ⟨Nat.succ_lt_succ h1, by simpa using h2⟩

/-- **C4** (confirmed).  Whenever the previous text has a body line — a
non-blank line starting with four spaces or a tab, at or after a line
containing the `construct` signature — the locator returns an offset strictly
greater than the index of every such body line (in particular of the last
one) and at most the number of lines; when no line contains the signature it
returns the end-of-text offset. -/
theorem insertionPointLocator_bounds (lines : List (List Char)) :
    ((∃ n, BodyLine lines n) →
      (∀ n, BodyLine lines n → n < findConstructInsertPosition lines)
        ∧ findConstructInsertPosition lines ≤ lines.length) ∧
    ((∀ l ∈ lines, listContains l CONSTRUCT_SIG = false) →
      findConstructInsertPosition lines = lines.length) := by
  constructor
  · rintro ⟨n0, hn0⟩
    cases hq : lastQualB false lines with
    | none => exact absurd hn0 (lastQualB_none hq n0)
    | some j =>
        obtain ⟨h1, _, h3⟩ := lastQualB_some hq
        rw [findConstructInsertPosition_eq, hq]
        constructor
        · intro n hn
          exact Nat.lt_succ_of_le (h3 n hn)
        · exact h1
  · intro hno
    have hq : lastQualB false lines = none := by
      cases hq : lastQualB false lines with
      | none => rfl
      | some j =>
          exfalso
          obtain ⟨h1, h2, _⟩ := lastQualB_some hq
          rcases h2.2.2 with hf | hs
          · cases hf
          · obtain ⟨m, hm, hc⟩ := (hasSigUpTo_iff lines j).mp hs
            have hmlt : m < lines.length := Nat.lt_of_le_of_lt hm h1
            rw [List.getD_eq_getElem lines [] hmlt] at hc
            rw [hno _ (List.getElem_mem hmlt)] at hc
            cases hc
    have hfc : firstConstructIdx lines = none := by
      cases hfc : firstConstructIdx lines with
      | none => rfl
      | some k =>
          exfalso
          obtain ⟨h1, h2⟩ := firstConstructIdx_some hfc
          rw [List.getD_eq_getElem lines [] h1] at h2
          rw [hno _ (List.getElem_mem h1)] at h2
          cases h2
    rw [findConstructInsertPosition_eq, hq, hfc]

/-- Witness for `insertionPointLocator_bounds` at concrete inputs. -/
theorem insertionPointLocator_bounds_witness :
    2 < findConstructInsertPosition
        ["class S(Scene):".data, "    def construct(self):".data, "        a = 1".data]
      ∧ findConstructInsertPosition
        ["class S(Scene):".data, "    def construct(self):".data, "        a = 1".data] ≤ 3
      ∧ findConstructInsertPosition ["x = 1".data] = 1 :=
  ⟨((insertionPointLocator_bounds
      ["class S(Scene):".data, "    def construct(self):".data, "        a = 1".data]).1
        ⟨2, by decide⟩).1 2 (by decide),
   ((insertionPointLocator_bounds
      ["class S(Scene):".data, "    def construct(self):".data, "        a = 1".data]).1
        ⟨2, by decide⟩).2,
   (insertionPointLocator_bounds ["x = 1".data]).2 (by decide)⟩

/-- **C5** (corrected).  For a text containing the signature (first signature
line at index `k`), the locator returns one past the **last body line under
the code's fixed test** — non-blank and starting with four spaces or a tab,
at or after the signature (which itself qualifies when so indented) — and
`k + 1` when no such line exists.  The test is a fixed one-level threshold,
not "at or deeper than one level below the signature's own indentation" as
the claim states; see `insertionPointLocator_depth_counterexample`. -/
theorem insertionPointLocator_last_indented (lines : List (List Char)) (k : Nat)
    (hk : firstConstructIdx lines = some k) :
    ((∃ n, BodyLine lines n) →
      ∃ j, BodyLine lines j ∧ (∀ n, BodyLine lines n → n ≤ j)
        ∧ findConstructInsertPosition lines = j + 1) ∧
    ((¬ ∃ n, BodyLine lines n) → findConstructInsertPosition lines = k + 1) := by
  constructor
  · rintro ⟨n0, hn0⟩
    cases hq : lastQualB false lines with
    | none => exact absurd hn0 (lastQualB_none hq n0)
    | some j =>
        obtain ⟨_, h2, h3⟩ := lastQualB_some hq
        exact ⟨j, h2, h3, by rw [findConstructInsertPosition_eq, hq]⟩
  · intro hno
    have hq : lastQualB false lines = none := by
      cases hq : lastQualB false lines with
      | none => rfl
      | some j =>
          exact absurd ⟨j, (lastQualB_some hq).2.1⟩ hno
    rw [findConstructInsertPosition_eq, hq, hk]

/-- **C5 counterexample.**  In
`["class S(Scene):", "    def construct(self):", "        a = 1", "    x = 5"]`
the method-body indentation level is 8 (signature at 4 plus one level), so the
claim's last qualifying line is `        a = 1` at index 2 and the claimed
offset (`insertPosSpec`, written from the spec's words) is 3; the code counts
the 4-space line `    x = 5` too and returns 4. -/
theorem insertionPointLocator_depth_counterexample :
    insertPosSpec ["class S(Scene):".data, "    def construct(self):".data,
        "        a = 1".data, "    x = 5".data] = some 3
      ∧ findConstructInsertPosition ["class S(Scene):".data,
          "    def construct(self):".data, "        a = 1".data, "    x = 5".data] = 4
      ∧ findConstructInsertPosition ["class S(Scene):".data,
          "    def construct(self):".data, "        a = 1".data, "    x = 5".data] ≠ 3 := by
  refine ⟨by decide, by decide, by decide⟩

/-- Witness for `insertionPointLocator_last_indented` at a concrete input. -/
theorem insertionPointLocator_last_indented_witness :
    findConstructInsertPosition ["class S(Scene):".data,
        "    def construct(self):".data, "        a = 1".data, "    x = 5".data] = 4 := by
  obtain ⟨j, hj, hmax, heq⟩ :=
    (insertionPointLocator_last_indented ["class S(Scene):".data,
        "    def construct(self):".data, "        a = 1".data, "    x = 5".data]
      1 (by decide)).1 ⟨3, by decide⟩
  have h3 : 3 ≤ j := hmax 3 (by decide)
  have h4 : j < 4 := hj.1
  have hj3 : j = 3 := by omega
  rw [heq, hj3]

/-! ## Fence stripping (claim C8) -/

/-- **C8** (corrected).  `_strip_code_fences` returns the input unchanged when
the stripped text does not open with a fence (i.e. when the first non-blank
content is not ```` ``` ````), and a second application is a no-op whenever
the once-stripped result does not itself open with a fence.  Unconditional
idempotence is false — see `fenceStripper_idempotence_counterexample`: when
the line after the opening fence itself starts with ```` ``` ````, a second
application strips again. -/
theorem fenceStripper_conditional_idempotent (code : List Char) :
    (("```".data).isPrefixOf (pyStrip code) = false → stripCodeFences code = code) ∧
    (("```".data).isPrefixOf (pyStrip (stripCodeFences code)) = false →
      stripCodeFences (stripCodeFences code) = stripCodeFences code) := by
  have hbase : ∀ s : List Char, ("```".data).isPrefixOf (pyStrip s) = false →
      stripCodeFences s = s := by
    intro s hs
    unfold stripCodeFences
    rw [if_neg (by simp [hs])]
  exact ⟨hbase code, hbase (stripCodeFences code)⟩

set_option maxRecDepth 40000 in
/-- **C8 counterexample.**  On ```` ```\n```foo\nbar ````, one application
yields ```` ```foo\nbar ```` and a second application yields `bar`: the
Fence Stripper is not idempotent. -/
theorem fenceStripper_idempotence_counterexample :
    stripCodeFences "```\n```foo\nbar".data = "```foo\nbar".data ∧
    stripCodeFences (stripCodeFences "```\n```foo\nbar".data)
      ≠ stripCodeFences "```\n```foo\nbar".data := by
  refine ⟨by decide, by decide⟩

set_option maxRecDepth 40000 in
/-- Witness for `fenceStripper_conditional_idempotent` at concrete inputs. -/
theorem fenceStripper_conditional_idempotent_witness :
    stripCodeFences "x = 1".data = "x = 1".data ∧
    stripCodeFences (stripCodeFences "```python\ny = 2\n```".data)
      = stripCodeFences "```python\ny = 2\n```".data :=
  ⟨(fenceStripper_conditional_idempotent ("x = 1".data)).1 (by decide),
   (fenceStripper_conditional_idempotent ("```python\ny = 2\n```".data)).2 (by decide)⟩

/-! ## Name order: totality and transitivity (claims C3, C10) -/

theorem lexLe_total (a b : List Char) : lexLe a b = true ∨ lexLe b a = true := by
  induction a generalizing b with
  | nil => exact Or.inl rfl
  | cons x as ih =>
      cases b with
      | nil => exact Or.inr rfl
      | cons y bs =>
          by_cases hxy : x < y
          · exact Or.inl (by simp [lexLe, hxy])
          · by_cases hyx : y < x
            · exact Or.inr (by simp [lexLe, hyx])
            · rcases ih bs with h | h
              · exact Or.inl (by simp [lexLe, hxy, hyx, h])
              · exact Or.inr (by simp [lexLe, hxy, hyx, h])

theorem lexLe_trans {a b c : List Char} (h1 : lexLe a b = true)
    (h2 : lexLe b c = true) : lexLe a c = true := by
  induction a generalizing b c with
  | nil => rfl
  | cons x as ih =>
      cases b with
      | nil => simp [lexLe] at h1
      | cons y bs =>
          cases c with
          | nil => simp [lexLe] at h2
          | cons z cs =>
              simp only [lexLe] at h1 h2 ⊢
              by_cases hxy : x < y
              · by_cases hyz : y < z
                · simp [lt_trans hxy hyz]
                · by_cases hzy : z < y
                  · simp [hyz, hzy] at h2
                  · have hyz2 : y = z := le_antisymm (le_of_not_lt hzy) (le_of_not_lt hyz)
                    subst hyz2
                    simp [hxy]
              · by_cases hyx : y < x
                · simp [hxy, hyx] at h1
                · have hxy2 : x = y := le_antisymm (le_of_not_lt hyx) (le_of_not_lt hxy)
                  subst hxy2
                  rw [if_neg hxy, if_neg hyx] at h1
                  by_cases hyz : x < z
                  · simp [hyz]
                  · by_cases hzy : z < x
                    · simp [hyz, hzy] at h2
                    · have hxz : x = z := le_antisymm (le_of_not_lt hzy) (le_of_not_lt hyz)
                      subst hxz
                      rw [if_neg hyz, if_neg hzy] at h2
                      simp [hyz, hzy]
                      exact ih h1 h2

instance : IsTrans MediaFile nameLe :=
  ⟨fun _ _ _ h1 h2 => lexLe_trans h1 h2⟩

instance : IsTotal MediaFile nameLe :=
  ⟨fun a b => lexLe_total a.name b.name⟩

/-! ## Segment resolution (claim C3) -/

/-- **C3** (confirmed).  Segment resolution in `_on_finished`: round index 0
resolves to the whole-program video regardless of the segment set; for index
`≥ 1` over a name-ordered segment set of size `count`, `index < count`
resolves to the element at position `index`, `index ≥ count` with `count > 0`
clamps to the last element, and `count = 0` fails (no playable file is
recorded for the round, modelled as `none`). -/
theorem segmentResolver_rules (idx : Nat) (w : MediaFile) (l : List MediaFile) :
    (idx = 0 → resolveSegment idx w l = some w) ∧
    (1 ≤ idx → l = [] → resolveSegment idx w l = none) ∧
    (1 ≤ idx → List.Sorted nameLe l → ∀ h : idx < l.length,
        resolveSegment idx w l = some (l.get ⟨idx, h⟩)) ∧
    (1 ≤ idx → List.Sorted nameLe l → l.length ≤ idx →
        resolveSegment idx w l = l.getLast?) := by
  have hsort : List.Sorted nameLe l → sortByName l = l := by
    intro hs
    unfold sortByName
    exact hs.insertionSort_eq
  refine ⟨?_, ?_, ?_, ?_⟩
  · intro h
    subst h
    unfold resolveSegment
    rw [if_pos rfl]
  · intro h1 h2
    subst h2
    unfold resolveSegment
    rw [if_neg (by omega)]
    simp
  · intro h1 hs h
    have hne : l.isEmpty = false := by
      rw [Bool.eq_false_iff]
      intro hb
      rw [List.isEmpty_iff.mp hb] at h
      simp at h
    unfold resolveSegment
    rw [if_neg (by omega), if_neg (by simp [hne]), hsort hs]
    rw [dif_pos h]
  · intro h1 hs h2
    by_cases hne : l = []
    · subst hne
      unfold resolveSegment
      rw [if_neg (by omega)]
      simp
    · have hne2 : l.isEmpty = false := by
        rw [Bool.eq_false_iff]
        intro hb
        exact hne (List.isEmpty_iff.mp hb)
      unfold resolveSegment
      rw [if_neg (by omega), if_neg (by simp [hne2]), hsort hs]
      rw [dif_neg (by omega)]

/-- Witness for `segmentResolver_rules` at concrete inputs. -/
theorem segmentResolver_rules_witness :
    resolveSegment 0 (⟨"w".data, "W".data⟩ : MediaFile)
        [⟨"a".data, "A".data⟩, ⟨"b".data, "B".data⟩] = some ⟨"w".data, "W".data⟩
      ∧ resolveSegment 1 (⟨"w".data, "W".data⟩ : MediaFile) [] = none
      ∧ resolveSegment 1 (⟨"w".data, "W".data⟩ : MediaFile)
          [⟨"a".data, "A".data⟩, ⟨"b".data, "B".data⟩] = some ⟨"b".data, "B".data⟩
      ∧ resolveSegment 5 (⟨"w".data, "W".data⟩ : MediaFile)
          [⟨"a".data, "A".data⟩, ⟨"b".data, "B".data⟩] = some ⟨"b".data, "B".data⟩ := by
  refine ⟨(segmentResolver_rules 0 _ _).1 rfl,
    (segmentResolver_rules 1 _ _).2.1 (by decide) rfl, ?_, ?_⟩
  · rw [(segmentResolver_rules 1 _ _).2.2.1 (by decide) (by decide) (by decide)]
    rfl
  · rw [(segmentResolver_rules 5 _ _).2.2.2 (by decide) (by decide) (by decide)]
    rfl

/-! ## Section-video discovery (claim C10) -/

/-- **C10** (confirmed).  `find_section_videos` returns a list sorted in
ascending lexicographic order of file names; it is a permutation of the
`.mp4` files of the chosen sections directory; and when no sections directory
exists (primary path missing, no glob fallback) it returns the empty list
rather than failing. -/
theorem sectionDiscovery_sorted_or_empty (fs : JobFS) :
    List.Sorted nameLe (findSectionVideos fs) ∧
    (∀ files, sectionsListing fs = some files →
      (findSectionVideos fs).Perm (files.filter isMp4File)) ∧
    (fs.primary = none → fs.fallbacks = [] → findSectionVideos fs = []) := by
  refine ⟨?_, ?_, ?_⟩
  · unfold findSectionVideos
    cases h : sectionsListing fs with
    | none => exact List.sorted_nil
    | some files => exact List.sorted_insertionSort nameLe _
  · intro files h
    unfold findSectionVideos
    rw [h]
    exact List.perm_insertionSort nameLe _
  · intro h1 h2
    unfold findSectionVideos sectionsListing
    rw [h1, h2]
    rfl

/-- Witness for `sectionDiscovery_sorted_or_empty` at concrete inputs. -/
theorem sectionDiscovery_sorted_or_empty_witness :
    (findSectionVideos ⟨some [⟨"b.mp4".data, "B".data⟩, ⟨"a.mp4".data, "A".data⟩,
        ⟨"c.txt".data, "C".data⟩], []⟩).Perm
      (([⟨"b.mp4".data, "B".data⟩, ⟨"a.mp4".data, "A".data⟩,
        ⟨"c.txt".data, "C".data⟩] : List MediaFile).filter isMp4File)
      ∧ findSectionVideos ⟨none, []⟩ = [] :=
  ⟨(sectionDiscovery_sorted_or_empty _).2.1 _ rfl,
   (sectionDiscovery_sorted_or_empty ⟨none, []⟩).2.2 rfl rfl⟩

/-! ## Scene-class extraction (claim C9) -/

theorem dropLit_eq_some_iff {lit s r : List Char} :
    dropLit lit s = some r ↔ s = lit ++ r := by
  unfold dropLit
  constructor
  · intro h
    by_cases hp : lit.isPrefixOf s = true
    · rw [if_pos hp] at h
      obtain ⟨t, rfl⟩ := List.isPrefixOf_iff_prefix.mp hp
      rw [List.drop_left] at h
      rw [Option.some.inj h]
    · rw [if_neg hp] at h
      cases h
  · intro h
    subst h
    rw [if_pos (List.isPrefixOf_iff_prefix.mpr (List.prefix_append lit r)),
      List.drop_left]

/-- Exact run decomposition for `takeWhile`/`dropWhile`. -/
theorem takeWhile_dropWhile_exact (p : Char → Bool) (a b : List Char)
    (ha : ∀ x ∈ a, p x = true) (hb : ∀ c, b.head? = some c → p c = false) :
    (a ++ b).takeWhile p = a ∧ (a ++ b).dropWhile p = b := by
  induction a with
  | nil =>
      cases b with
      | nil => exact ⟨rfl, rfl⟩
      | cons c bs =>
          have hc := hb c rfl
          simp [List.takeWhile_cons, List.dropWhile_cons, hc]
  | cons x a ih =>
      have hx : p x = true := ha x (List.mem_cons_self x a)
      have h2 := ih (fun y hy => ha y (List.mem_cons_of_mem x hy))
      simp [List.takeWhile_cons, List.dropWhile_cons, hx, h2.1, h2.2]

theorem ws_not_word {c : Char} (h : pyIsSpace c = true) : isWordChar c = false := by
  simp only [pyIsSpace, Bool.or_eq_true, decide_eq_true_eq] at h
  rcases h with ((((rfl | rfl) | rfl) | rfl) | rfl) | rfl <;> decide

/-- The shape of a `SCENE_CLASS_RE` match at the start of a string: the
literal `class`, whitespace, the captured word-character name, optional
whitespace, `(`, optional whitespace, `Scene`, optional whitespace, `)`,
anything after. -/
def SceneShapeAt (s n : List Char) : Prop :=
  ∃ w1 w2 w3 w4 rest,
    s = "class".data ++ (w1 ++ (n ++ (w2 ++ ('(' :: (w3 ++ ("Scene".data
        ++ (w4 ++ (')' :: rest))))))))
    ∧ w1 ≠ [] ∧ (∀ c ∈ w1, pyIsSpace c = true)
    ∧ n ≠ [] ∧ (∀ c ∈ n, isWordChar c = true)
    ∧ (∀ c ∈ w2, pyIsSpace c = true)
    ∧ (∀ c ∈ w3, pyIsSpace c = true)
    ∧ (∀ c ∈ w4, pyIsSpace c = true)

theorem word_not_ws {c : Char} (h : isWordChar c = true) : pyIsSpace c = false := by
  rw [Bool.eq_false_iff]
  intro hb
  rw [ws_not_word hb] at h
  cases h

theorem isEmpty_false_of_ne_nil {l : List Char} (h : l ≠ []) : l.isEmpty = false := by
  cases l with
  | nil => exact absurd rfl h
  | cons x xs => rfl

theorem matchSceneAt_of_shape {s n : List Char} (h : SceneShapeAt s n) :
    matchSceneAt s = some n := by
  obtain ⟨w1, w2, w3, w4, rest, rfl, hw1ne, hw1, hnne, hn, hw2, hw3, hw4⟩ := h
  have hd : dropLit "class".data ("class".data ++ (w1 ++ (n ++ (w2 ++ ('(' :: (w3
      ++ ("Scene".data ++ (w4 ++ (')' :: rest))))))))) = some (w1 ++ (n ++ (w2
      ++ ('(' :: (w3 ++ ("Scene".data ++ (w4 ++ (')' :: rest)))))))) :=
    dropLit_eq_some_iff.mpr rfl
  have ht1 := takeWhile_dropWhile_exact pyIsSpace w1
    (n ++ (w2 ++ ('(' :: (w3 ++ ("Scene".data ++ (w4 ++ (')' :: rest))))))) hw1
    (by
      intro c hc
      cases n with
      | nil => exact absurd rfl hnne
      | cons m ns =>
          rw [List.cons_append, List.head?_cons] at hc
          rw [← Option.some.inj hc]
          exact word_not_ws (hn m (List.mem_cons_self m ns)))
  have ht2 := takeWhile_dropWhile_exact isWordChar n
    (w2 ++ ('(' :: (w3 ++ ("Scene".data ++ (w4 ++ (')' :: rest)))))) hn
    (by
      intro c hc
      cases w2 with
      | nil =>
          rw [List.nil_append, List.head?_cons] at hc
          rw [← Option.some.inj hc]
          decide
      | cons m ms =>
          rw [List.cons_append, List.head?_cons] at hc
          rw [← Option.some.inj hc]
          exact ws_not_word (hw2 m (List.mem_cons_self m ms)))
  have ht3 := takeWhile_dropWhile_exact pyIsSpace w2
    ('(' :: (w3 ++ ("Scene".data ++ (w4 ++ (')' :: rest))))) hw2
    (by
      intro c hc
      rw [List.head?_cons] at hc
      rw [← Option.some.inj hc]
      decide)
  have ht4 := takeWhile_dropWhile_exact pyIsSpace w3
    ("Scene".data ++ (w4 ++ (')' :: rest))) hw3
    (by
      intro c hc
      have hS : ("Scene".data ++ (w4 ++ (')' :: rest))).head? = some 'S' := rfl
      rw [hS] at hc
      rw [← Option.some.inj hc]
      decide)
  have hd2 : dropLit "Scene".data ("Scene".data ++ (w4 ++ (')' :: rest)))
      = some (w4 ++ (')' :: rest)) := dropLit_eq_some_iff.mpr rfl
  have ht5 := takeWhile_dropWhile_exact pyIsSpace w4 (')' :: rest) hw4
    (by
      intro c hc
      rw [List.head?_cons] at hc
      rw [← Option.some.inj hc]
      decide)
  have hw1e : w1.isEmpty = false := isEmpty_false_of_ne_nil hw1ne
  have hne : n.isEmpty = false := isEmpty_false_of_ne_nil hnne
  simp only [matchSceneAt, hd, ht1.1, ht1.2, ht2.1, ht2.2, ht3.2, ht4.2, hd2,
    ht5.2, hw1e, hne, Bool.false_eq_true, if_false, if_true]

theorem ne_nil_of_not_isEmpty {l : List Char} (h : ¬ l.isEmpty = true) : l ≠ [] := by
  intro heq
  subst heq
  exact h rfl

theorem shape_of_matchSceneAt {s n : List Char} (h : matchSceneAt s = some n) :
    SceneShapeAt s n := by
  unfold matchSceneAt at h
  cases hd : dropLit "class".data s with
  | none =>
      rw [hd] at h
      cases h
  | some s1 =>
      rw [hd] at h
      dsimp only at h
      by_cases h1 : (s1.takeWhile pyIsSpace).isEmpty = true
      · rw [if_pos h1] at h
        cases h
      · rw [if_neg h1] at h
        by_cases h2 : ((s1.dropWhile pyIsSpace).takeWhile isWordChar).isEmpty = true
        · rw [if_pos h2] at h
          cases h
        · rw [if_neg h2] at h
          cases hq : ((s1.dropWhile pyIsSpace).dropWhile isWordChar).dropWhile pyIsSpace with
          | nil =>
              rw [hq] at h
              dsimp only at h
              cases h
          | cons c s4 =>
              rw [hq] at h
              dsimp only at h
              by_cases hc : c = '('
              · subst hc
                rw [if_pos rfl] at h
                cases hd2 : dropLit "Scene".data (s4.dropWhile pyIsSpace) with
                | none =>
                    rw [hd2] at h
                    cases h
                | some s5 =>
                    rw [hd2] at h
                    dsimp only at h
                    cases hq2 : s5.dropWhile pyIsSpace with
                    | nil =>
                        rw [hq2] at h
                        dsimp only at h
                        cases h
                    | cons d rest =>
                        rw [hq2] at h
                        dsimp only at h
                        by_cases hdc : d = ')'
                        · subst hdc
                          rw [if_pos rfl] at h
                          have hn := Option.some.inj h
                          subst hn
                          refine ⟨s1.takeWhile pyIsSpace,
                            ((s1.dropWhile pyIsSpace).dropWhile isWordChar).takeWhile pyIsSpace,
                            s4.takeWhile pyIsSpace, s5.takeWhile pyIsSpace, rest,
                            ?_, ne_nil_of_not_isEmpty h1,
                            fun c hc => List.mem_takeWhile_imp hc,
                            ne_nil_of_not_isEmpty h2,
                            fun c hc => List.mem_takeWhile_imp hc,
                            fun c hc => List.mem_takeWhile_imp hc,
                            fun c hc => List.mem_takeWhile_imp hc,
                            fun c hc => List.mem_takeWhile_imp hc⟩
                          rw [dropLit_eq_some_iff.mp hd]
                          congr 1
                          conv_lhs => rw [← List.takeWhile_append_dropWhile pyIsSpace s1]
                          congr 1
                          conv_lhs => rw [← List.takeWhile_append_dropWhile isWordChar
                            (s1.dropWhile pyIsSpace)]
                          congr 1
                          conv_lhs => rw [← List.takeWhile_append_dropWhile pyIsSpace
                            ((s1.dropWhile pyIsSpace).dropWhile isWordChar)]
                          congr 1
                          rw [hq]
                          congr 1
                          conv_lhs => rw [← List.takeWhile_append_dropWhile pyIsSpace s4]
                          congr 1
                          rw [dropLit_eq_some_iff.mp hd2]
                          congr 1
                          conv_lhs => rw [← List.takeWhile_append_dropWhile pyIsSpace s5]
                          rw [hq2]
                        · rw [if_neg hdc] at h
                          cases h
              · rw [if_neg hc] at h
                cases h

/-- `matchSceneAt` succeeds with name `n` exactly on strings opening with a
scene-class declaration shape naming `n`. -/
theorem matchSceneAt_some_iff (s n : List Char) :
    matchSceneAt s = some n ↔ SceneShapeAt s n :=
  ⟨shape_of_matchSceneAt, matchSceneAt_of_shape⟩

theorem searchScene_eq_none_iff (s : List Char) :
    searchScene s = none ↔ ∀ i, matchSceneAt (s.drop i) = none := by
  induction s with
  | nil =>
      constructor
      · intro _ i
        rw [List.drop_nil]
        rfl
      · intro _
        rfl
  | cons c rest ih =>
      constructor
      · intro h i
        rw [searchScene] at h
        cases hm : matchSceneAt (c :: rest) with
        | some n2 =>
            rw [hm] at h
            dsimp only at h
            cases h
        | none =>
            rw [hm] at h
            dsimp only at h
            cases i with
            | zero => exact hm
            | succ i =>
                rw [List.drop_succ_cons]
                exact ih.mp h i
      · intro h
        rw [searchScene]
        have h0 := h 0
        rw [List.drop_zero] at h0
        rw [h0]
        dsimp only
        exact ih.mpr (fun i => by
          have := h (i + 1)
          rw [List.drop_succ_cons] at this
          exact this)

theorem searchScene_eq_some {s n : List Char} (h : searchScene s = some n) :
    ∃ i, matchSceneAt (s.drop i) = some n
      ∧ ∀ j, j < i → matchSceneAt (s.drop j) = none := by
  induction s with
  | nil => cases h
  | cons c rest ih =>
      rw [searchScene] at h
      cases hm : matchSceneAt (c :: rest) with
      | some n2 =>
          rw [hm] at h
          dsimp only at h
          refine ⟨0, ?_, ?_⟩
          · rw [List.drop_zero, hm, h]
          · intro j hj
            cases hj
      | none =>
          rw [hm] at h
          dsimp only at h
          obtain ⟨i, h1, h2⟩ := ih h
          refine ⟨i + 1, ?_, ?_⟩
          · rw [List.drop_succ_cons]
            exact h1
          · intro j hj
            cases j with
            | zero => exact hm
            | succ j =>
                rw [List.drop_succ_cons]
                exact h2 j (Nat.lt_of_succ_lt_succ hj)

/-- The text contains a scene-class declaration: at some split point a
`class <name>(Scene)`-shaped match begins. -/
def HasSceneDecl (s : List Char) : Prop :=
  ∃ pre tail n, s = pre ++ tail ∧ SceneShapeAt tail n

theorem hasSceneDecl_iff_exists_drop (s : List Char) :
    HasSceneDecl s ↔ ∃ i n, SceneShapeAt (s.drop i) n := by
  constructor
  · rintro ⟨pre, tail, n, rfl, hshape⟩
    refine ⟨pre.length, n, ?_⟩
    rw [List.drop_left]
    exact hshape
  · rintro ⟨i, n, hshape⟩
    exact ⟨s.take i, s.drop i, n, (List.take_append_drop i s).symm, hshape⟩

/-- **C9** (confirmed).  `extract_scene_class` raises its `RenderError` if and
only if no substring of the text matches the scene-class declaration pattern
`class <name>(Scene)`; when at least one declaration exists, it returns the
captured name of the first (leftmost) match without error. -/
theorem sceneClassExtraction_error_iff (code : List Char) :
    ((∃ e, extractSceneClass code = Except.error e) ↔ ¬ HasSceneDecl code) ∧
    (∀ n, extractSceneClass code = Except.ok n →
      ∃ i, SceneShapeAt (code.drop i) n
        ∧ ∀ j, j < i → ¬ ∃ m, SceneShapeAt (code.drop j) m) := by
  constructor
  · constructor
    · rintro ⟨e, he⟩ hdecl
      unfold extractSceneClass at he
      cases hs : searchScene code with
      | some n2 =>
          rw [hs] at he
          cases he
      | none =>
          obtain ⟨i, n, hshape⟩ := (hasSceneDecl_iff_exists_drop code).mp hdecl
          have := (searchScene_eq_none_iff code).mp hs i
          rw [matchSceneAt_of_shape hshape] at this
          cases this
    · intro hdecl
      cases hs : searchScene code with
      | some n2 =>
          exfalso
          obtain ⟨i, h1, _⟩ := searchScene_eq_some hs
          exact hdecl ((hasSceneDecl_iff_exists_drop code).mpr
            ⟨i, n2, shape_of_matchSceneAt h1⟩)
      | none =>
          refine ⟨"未找到 Scene 子类，请检查 AI 输出".data, ?_⟩
          unfold extractSceneClass
          rw [hs]
  · intro n hok
    unfold extractSceneClass at hok
    cases hs : searchScene code with
    | none =>
        rw [hs] at hok
        cases hok
    | some n2 =>
        rw [hs] at hok
        have hn : n2 = n := Except.ok.inj hok
        subst hn
        obtain ⟨i, h1, h2⟩ := searchScene_eq_some hs
        refine ⟨i, shape_of_matchSceneAt h1, ?_⟩
        rintro j hj ⟨m, hm⟩
        have := h2 j hj
        rw [matchSceneAt_of_shape hm] at this
        cases this

/-- Witness for `sceneClassExtraction_error_iff` at concrete inputs. -/
theorem sceneClassExtraction_error_iff_witness :
    (¬ HasSceneDecl "x = 1".data) ∧
    (∃ i, SceneShapeAt ("from manim import *\nclass Foo(Scene):".data.drop i) "Foo".data
      ∧ ∀ j, j < i →
          ¬ ∃ m, SceneShapeAt ("from manim import *\nclass Foo(Scene):".data.drop j) m) :=
  ⟨(sceneClassExtraction_error_iff ("x = 1".data)).1.mp ⟨_, by rfl⟩,
   (sceneClassExtraction_error_iff ("from manim import *\nclass Foo(Scene):".data)).2
     ("Foo".data) (by rfl)⟩
